import Mathlib

/-!
# Word-Ladder engine: a shallow embedding and verification

This file embeds the core of the word-ladder puzzle repository
(`word_graph.py`, `search.py`, `game.py`) into Lean and proves, or refutes,
the specification claims about it.

Modelling conventions:
* a Python `str` word is a `List Char`; `str.lower()` is `Char.toLower`
  mapped over the word (the dictionaries in play are ASCII);
* a Python `set`/`dict` is a list (of elements / of key-value pairs); the
  program only ever inserts a dict key when it is absent, so first-match
  lookup is exact.  Iteration order over sets, unspecified in Python, is
  modelled as the underlying insertion order, making the embedding a
  deterministic representative of the allowed behaviours;
* `float('inf')` in the heuristic becomes `⊤` in `ℕ∞`;
* Python `float` arithmetic in `calculate_score` is modelled exactly over
  `ℚ` (the concrete values exercised are far from any double rounding
  boundary), and `int(x)` is truncation toward zero;
* a method call on an attribute the class does not define raises
  `AttributeError`; this is modelled by consulting the literal list of
  method names the class defines.
-/

namespace WordLadder

/-- A word: Python string as a list of characters. -/
abbrev Word := List Char

/-- `str.lower()`. -/
def pyLower (w : Word) : Word := w.map Char.toLower

/-- The alphabet literal `'abcdefghijklmnopqrstuvwxyz'` from
`WordGraph.find_similar_words`. -/
def alphabet : List Char := "abcdefghijklmnopqrstuvwxyz".toList

/-! ## word_graph.py : class WordGraph -/

/-- The state of a `WordGraph` object: `word_list` (a set of words),
`word_connections` (dict word → set of words, flattened to pairs `(u, v)`
meaning `v ∈ word_connections[u]`), and `word_parents` (dict child → parent,
as an association list). -/
structure WordGraph where
  word_list : List Word
  word_connections : List (Word × Word)
  word_parents : List (Word × Word)
deriving DecidableEq

/-- `word in self.word_parents` / `self.word_parents[word]`: dict lookup.
Keys are inserted only when absent, so first-match lookup is the dict. -/
def lookupParent (ps : List (Word × Word)) (c : Word) : Option Word :=
  (ps.find? (fun e => e.1 = c)).map (fun e => e.2)

/-- `WordGraph.find_similar_words`: for each position and each alphabet
letter other than the current one, the changed word, kept when it is in
`word_list`.  (The Python method accumulates into a set; the `(position,
letter) ↦ changed_word` map is injective, so the list has no duplicates.) -/
def find_similar_words (word_list : List Word) (word : Word) : List Word :=
  (List.range word.length).flatMap (fun position =>
    alphabet.filterMap (fun new_letter =>
      if new_letter ≠ word.getD position ' ' then
        let changed_word := word.set position new_letter
        if changed_word ∈ word_list then some changed_word else none
      else none))

/-- One adoption attempt inside `build_word_network`'s inner loop:
`if similar_word not in self.word_parents: connect and record parent`. -/
def adoptStep (g : WordGraph) (word similar_word : Word) : WordGraph :=
  if lookupParent g.word_parents similar_word = none then
    { g with word_connections := (word, similar_word) :: g.word_connections,
             word_parents := (similar_word, word) :: g.word_parents }
  else g

/-- Processing one word of `build_word_network`'s outer loop. -/
def processWord (word_list : List Word) (g : WordGraph) (word : Word) : WordGraph :=
  (find_similar_words word_list word).foldl (fun g s => adoptStep g word s) g

/-- The order in which `build_word_network` visits words: grouped by length
(`length_groups`, keys in first-appearance order, each group in `word_list`
order), then flattened by the nested loops. -/
def buildOrder (word_list : List Word) : List Word :=
  let lengths := word_list.foldl
    (fun acc w => if w.length ∈ acc then acc else acc ++ [w.length]) []
  lengths.flatMap (fun n => word_list.filter (fun w => w.length = n))

/-- `WordGraph.build_word_network`, run on a graph holding `word_list`:
clears `word_connections` and `word_parents`, then connects similar words,
skipping any `similar_word` that already has a parent. -/
def build_word_network (word_list : List Word) : WordGraph :=
  (buildOrder word_list).foldl (processWord word_list)
    { word_list := word_list, word_connections := [], word_parents := [] }

/-- `WordGraph.get_connected_words`: the words reachable forward
(`word_connections[word]`) plus the word we came from (`word_parents[word]`).
The Python method returns a set; membership is what the program uses. -/
def get_connected_words (g : WordGraph) (word : Word) : List Word :=
  (g.word_connections.filter (fun e => e.1 = word)).map (fun e => e.2) ++
    (lookupParent g.word_parents word).toList

/-- `WordGraph.get_neighbors` is an alias for `get_connected_words`. -/
def get_neighbors (g : WordGraph) (word : Word) : List Word :=
  get_connected_words g word

/-- `WordGraph.is_valid_word`: membership of the lowercased word. -/
def is_valid_word (g : WordGraph) (word : Word) : Bool :=
  pyLower word ∈ g.word_list

/-- `WordGraph.word_exists`: alias for `is_valid_word`. -/
def word_exists (g : WordGraph) (word : Word) : Bool :=
  is_valid_word g word

/-- `WordGraph.count_words`. -/
def count_words (g : WordGraph) : Nat := g.word_list.length

/-- `WordGraph.load_words`: the set of non-empty, stripped, lowercased lines
of the file; the empty set when the file is missing (`FileNotFoundError`).
`source` is `none` for a missing file, otherwise the file's lines. -/
def pyStrip (w : Word) : Word :=
  ((w.dropWhile Char.isWhitespace).reverse.dropWhile Char.isWhitespace).reverse

def load_words (source : Option (List Word)) : List Word :=
  match source with
  | none => []
  | some lines =>
    (((lines.filter (fun w => pyStrip w ≠ [])).map
      (fun w => pyLower (pyStrip w)))).dedup

/-! ## search.py : SimpleQueue, SmartQueue, SearchAlgorithms -/

/-- `SearchAlgorithms.get_steps_taken`: `g(n) = len(path) - 1`. -/
def get_steps_taken (path : List Word) : Nat := path.length - 1

/-- `SearchAlgorithms.estimate_remaining_steps`: `h(n)`, the number of
positions where the words differ; `float('inf')` (modelled `⊤ : ℕ∞`) when
the lengths differ. -/
def estimate_remaining_steps (current_word target_word : Word) : ℕ∞ :=
  if current_word.length ≠ target_word.length then ⊤
  else (((current_word.zip target_word).filter (fun p => p.1 ≠ p.2)).length : ℕ)

/-- `SearchAlgorithms.calculate_total_cost`: `f(n) = g(n) + h(n)`. -/
def calculate_total_cost (steps_taken : Nat) (estimated_steps : ℕ∞) : ℕ∞ :=
  (steps_taken : ℕ∞) + estimated_steps

/-- The stats dictionary built by `SearchAlgorithms.get_path_stats`. -/
structure PathStats where
  g_cost : Nat
  h_cost : ℕ∞
  f_cost : ℕ∞
  path_length : Nat
deriving DecidableEq

/-- `SearchAlgorithms.get_path_stats` (`path[-1]` requires a non-empty path;
every call site passes one). -/
def get_path_stats (path : List Word) (target_word : Word) : PathStats :=
  let current_word := path.getLastD []
  let steps_taken := get_steps_taken path
  let estimated_steps := estimate_remaining_steps current_word target_word
  { g_cost := steps_taken
    h_cost := estimated_steps
    f_cost := calculate_total_cost steps_taken estimated_steps
    path_length := path.length }

/-- A queue entry `(current_word, current_path)`. -/
abbrev QueueEntry := Word × List Word

/-- A `SmartQueue` heap entry `(priority, counter, item)`. -/
abbrev HeapEntry := ℕ∞ × Nat × QueueEntry

/-- Tuple comparison on `(priority, counter)` as `heapq` performs it; the
strictly increasing counters mean two entries never compare equal, so the
item itself is never compared. -/
def heapLt (a b : ℕ∞ × Nat) : Prop := a.1 < b.1 ∨ (a.1 = b.1 ∧ a.2 < b.2)

instance : DecidableRel heapLt := fun a b => by
  unfold heapLt
  infer_instance

/-- `SmartQueue.get_next_item` via `heapq.heappop`: removes the entry with
the least `(priority, counter)` key, returning it and the remaining
entries. -/
def popMin : List HeapEntry → Option (HeapEntry × List HeapEntry)
  | [] => none
  | e :: es =>
    match popMin es with
    | none => some (e, [])
    | some (m, rest) =>
      if heapLt (m.1, m.2.1) (e.1, e.2.1) then some (m, e :: rest)
      else some (e, es)

/-- The body of `SearchAlgorithms.bfs`'s `while` loop, with a fuel bound on
the number of iterations (the loop pops one entry per iteration and every
enqueued word is fresh in `visited_words`, so `len(word_list) + 2`
iterations always suffice; see the completeness proofs). -/
def bfsLoop (g : WordGraph) (target_word : Word) :
    Nat → List QueueEntry → List Word → Option (List Word × PathStats)
  | 0, _, _ => none
  | _ + 1, [], _ => none
  | fuel + 1, (current_word, current_path) :: rest, visited_words =>
    if current_word = target_word then
      some (current_path, get_path_stats current_path target_word)
    else
      let st := (get_neighbors g current_word).foldl
        (fun (qv : List QueueEntry × List Word) next_word =>
          if next_word ∈ qv.2 then qv
          else (qv.1 ++ [(next_word, current_path ++ [next_word])],
                next_word :: qv.2))
        (rest, visited_words)
      bfsLoop g target_word fuel st.1 st.2

/-- `SearchAlgorithms.bfs`. -/
def bfs (g : WordGraph) (start_word target_word : Word) :
    Option (List Word × PathStats) :=
  if word_exists g start_word ∧ word_exists g target_word then
    bfsLoop g target_word (g.word_list.length + 2)
      [(start_word, [start_word])] [start_word]
  else none

/-- The body of `SearchAlgorithms.ucs`'s `while` loop (priority =
accumulated path cost), fuelled like `bfsLoop`. -/
def ucsLoop (g : WordGraph) (target_word : Word) :
    Nat → List HeapEntry → List Word → Nat → Option (List Word × PathStats)
  | 0, _, _, _ => none
  | fuel + 1, queue, visited_words, counter =>
    match popMin queue with
    | none => none
    | some (e, rest) =>
      let current_word := e.2.2.1
      let current_path := e.2.2.2
      if current_word = target_word then
        some (current_path, get_path_stats current_path target_word)
      else
        let st := (get_neighbors g current_word).foldl
          (fun (s : List HeapEntry × List Word × Nat) next_word =>
            if next_word ∈ s.2.1 then s
            else
              let new_path := current_path ++ [next_word]
              let path_cost := get_steps_taken new_path
              (s.1 ++ [((path_cost : ℕ∞), s.2.2, next_word, new_path)],
               next_word :: s.2.1, s.2.2 + 1))
          (rest, visited_words, counter)
        ucsLoop g target_word fuel st.1 st.2.1 st.2.2

/-- `SearchAlgorithms.ucs`. -/
def ucs (g : WordGraph) (start_word target_word : Word) :
    Option (List Word × PathStats) :=
  if word_exists g start_word ∧ word_exists g target_word then
    ucsLoop g target_word (g.word_list.length + 2)
      [((0 : ℕ∞), 0, start_word, [start_word])] [start_word] 1
  else none

/-- The body of `SearchAlgorithms.astar`'s `while` loop (priority =
`f = g + h`), fuelled like `bfsLoop`.  (`path_costs` is written but never
read by the Python code, so it is not part of the state.) -/
def astarLoop (g : WordGraph) (target_word : Word) :
    Nat → List HeapEntry → List Word → Nat → Option (List Word × PathStats)
  | 0, _, _, _ => none
  | fuel + 1, queue, visited_words, counter =>
    match popMin queue with
    | none => none
    | some (e, rest) =>
      let current_word := e.2.2.1
      let current_path := e.2.2.2
      if current_word = target_word then
        some (current_path, get_path_stats current_path target_word)
      else
        let st := (get_neighbors g current_word).foldl
          (fun (s : List HeapEntry × List Word × Nat) next_word =>
            if next_word ∈ s.2.1 then s
            else
              let new_path := current_path ++ [next_word]
              let steps_taken := get_steps_taken new_path
              let estimated_steps := estimate_remaining_steps next_word target_word
              let total_cost := calculate_total_cost steps_taken estimated_steps
              (s.1 ++ [(total_cost, s.2.2, next_word, new_path)],
               next_word :: s.2.1, s.2.2 + 1))
          (rest, visited_words, counter)
        astarLoop g target_word fuel st.1 st.2.1 st.2.2

/-- `SearchAlgorithms.astar`. -/
def astar (g : WordGraph) (start_word target_word : Word) :
    Option (List Word × PathStats) :=
  if word_exists g start_word ∧ word_exists g target_word then
    astarLoop g target_word (g.word_list.length + 2)
      [(estimate_remaining_steps start_word target_word, 0,
        start_word, [start_word])] [start_word] 1
  else none

/-! ## game.py : WordLadderGame -/

/-- The mutable state of a `WordLadderGame` object (the engine fields; the
`search` helper is a stateless wrapper around `word_graph` and is not
stored).  `algorithm_stats` maps an algorithm name to its recorded path and
costs. -/
structure GameState where
  word_graph : WordGraph
  current_word : Option Word
  target_word : Option Word
  moves : List Word
  best_path : Option (List Word)
  difficulty : String
  score : ℤ
  banned_words : List Word
  move_limit : Nat
  algorithm_stats : List (String × List Word × PathStats)
  selected_algorithm : String
  restricted_letters : List Char
  min_word_length : Nat
  max_word_length : Nat
deriving DecidableEq

/-- `str.lower()` on a Lean `String` (for algorithm/difficulty names). -/
def pyLowerStr (s : String) : String := String.mk (s.data.map Char.toLower)

/-- `WordLadderGame.is_word_valid`. -/
def is_word_valid (st : GameState) (word : Word) : Bool :=
  if word = [] then false
  else
    let word := pyLower word
    if ¬ (word_exists st.word_graph word = true) then false
    else if word ∈ st.banned_words then false
    else if word.length < st.min_word_length ∨ st.max_word_length < word.length then false
    else if st.difficulty = "challenge" ∧
        word.any (fun letter => letter ∈ st.restricted_letters) then false
    else true

/-- `WordLadderGame.is_valid_move`.  (`self.current_word` may be `None`, in
which case the neighbour set is empty and the move is rejected.) -/
def is_valid_move (st : GameState) (word : Word) : Bool :=
  if word = [] then false
  else if st.move_limit ≤ st.moves.length then false
  else
    let word := pyLower word
    if ¬ (is_word_valid st word = true) then false
    else
      match st.current_word with
      | none => false
      | some c => word ∈ get_neighbors st.word_graph c

/-- `WordLadderGame.make_move`: returns the updated state and the Bool the
method returns. -/
def make_move (st : GameState) (new_word : Word) : GameState × Bool :=
  let new_word := pyLower new_word
  if ¬ (is_valid_move st new_word = true) then (st, false)
  else
    ({ st with current_word := some new_word, moves := st.moves ++ [new_word] },
     true)

/-- `int(x)` on a Python float: truncation toward zero, on `ℚ`
(`Rat.floor` is the `⌊·⌋` of the `FloorRing ℚ` instance). -/
def pyInt (q : ℚ) : ℤ := if q < 0 then -(Rat.floor (-q)) else Rat.floor q

/-- Python's builtin `min` on two floats, on `ℚ` (equal to `Min.min`;
spelled out so that concrete scores evaluate by kernel reduction). -/
def pyMin (a b : ℚ) : ℚ := if a ≤ b then a else b

/-- The `multipliers.get(self.difficulty, 1.0)` lookup in
`calculate_score`. -/
def difficultyMultiplier (d : String) : ℚ :=
  if d = "beginner" then 1
  else if d = "advanced" then 3 / 2
  else if d = "challenge" then 2
  else 1

/-- `WordLadderGame.calculate_score`, with Python float arithmetic carried
out exactly over `ℚ`. -/
def calculate_score (st : GameState) : ℤ :=
  match st.best_path with
  | none => 0
  | some bp =>
    if bp = [] then 0
    else
      let optimal_moves : ℤ := (bp.length : ℤ) - 1
      let actual_moves : ℤ := (st.moves.length : ℤ) - 1
      if actual_moves = 0 then 0
      else
        let remaining_moves : ℤ := (st.move_limit : ℤ) - actual_moves
        let base_score : ℚ := pyMin (1000 * ((optimal_moves : ℚ) / (actual_moves : ℚ))) 1000
        let move_bonus : ℚ := (remaining_moves : ℚ) * 100
        pyInt ((base_score + move_bonus) * difficultyMultiplier st.difficulty)

/-- `WordLadderGame.start_new_game`: returns the updated state and the
returned Bool.  The connectivity probe is `self.search.astar`; `if not
path` is true both for `None` and for an empty path. -/
def start_new_game (st : GameState) (start_word target_word : Word) :
    GameState × Bool :=
  let start_word := pyLower start_word
  let target_word := pyLower target_word
  if ¬ (is_word_valid st start_word = true ∧ is_word_valid st target_word = true) then
    (st, false)
  else
    match astar st.word_graph start_word target_word with
    | none => (st, false)
    | some (path, _) =>
      if path = [] then (st, false)
      else
        ({ st with current_word := some start_word,
                   target_word := some target_word,
                   moves := [start_word],
                   best_path := some path,
                   score := 0,
                   algorithm_stats := [] }, true)

/-- The method names `class SearchAlgorithms` defines (search.py).
`h_cost` is not among them: `self.search.h_cost(...)` in `get_hint`
raises `AttributeError`. -/
def searchAlgorithmsMethods : List String :=
  ["get_steps_taken", "estimate_remaining_steps", "calculate_total_cost",
   "get_path_stats", "bfs", "ucs", "astar"]

/-- The method names `class WordGraph` defines (word_graph.py).  Neither
`get_word_count` nor `build_graph` is among them: both calls in
`initialize_game` raise `AttributeError`. -/
def wordGraphMethods : List String :=
  ["load_words", "find_similar_words", "build_word_network",
   "get_connected_words", "get_neighbors", "get_path_to_start",
   "find_possible_words", "is_valid_word", "word_exists", "count_words",
   "count_connections"]

/-- `WordLadderGame.initialize_game`: loads the dictionary, then calls
`self.word_graph.get_word_count()`.  `WordGraph` defines `count_words`,
not `get_word_count`, so the call raises `AttributeError`, the blanket
`except Exception` catches it, and the method returns `False` — before
`build_graph()` (also nonexistent) or the empty-dictionary check can
matter. -/
def initialize_game (source : Option (List Word)) : Bool :=
  let word_list := load_words source
  if "get_word_count" ∈ wordGraphMethods then
    -- dead code: the attribute lookup fails first
    (if word_list.length = 0 then false else true)
  else false

/-- The early-return messages of `get_hint`. -/
inductive HintOutcome
  | noSolution
  | noPathFromHere
  | atTarget
deriving DecidableEq

/-- The tail of `get_hint` once `current_index` is known: at the end of the
path it returns the "already at target" message; otherwise the code reads
`next_word` and then evaluates `self.search.h_cost(...)`, which raises
`AttributeError` (`SearchAlgorithms` defines no `h_cost`), so the hint
tuple is never produced. -/
def hintFrom (st : GameState) (bp : List Word) (current_index : Nat) :
    Except String (GameState × Option Word × HintOutcome) :=
  if bp.length - 1 ≤ current_index then .ok (st, none, .atTarget)
  else .error "AttributeError: SearchAlgorithms object has no attribute h_cost"

/-- `WordLadderGame.get_hint`: result is `.error` when an exception escapes
the method, `.ok (st, word?, outcome)` otherwise (`st` because the off-path
branch reassigns `self.best_path`). -/
def get_hint (st : GameState) :
    Except String (GameState × Option Word × HintOutcome) :=
  match st.best_path with
  | none => .ok (st, none, .noSolution)
  | some bp =>
    if bp = [] then .ok (st, none, .noSolution)
    else
      let idx := match st.current_word with
        | none => none
        | some c => bp.indexOf? c
      match idx with
      | some current_index => hintFrom st bp current_index
      | none =>
        let algo_name := if st.selected_algorithm = "A*" then "astar"
          else pyLowerStr st.selected_algorithm
        match st.current_word, st.target_word with
        | some c, some t =>
          let result :=
            if algo_name = "bfs" then some (bfs st.word_graph c t)
            else if algo_name = "ucs" then some (ucs st.word_graph c t)
            else if algo_name = "astar" then some (astar st.word_graph c t)
            else none
          match result with
          | none => .error "AttributeError: no such search method"
          | some none => .ok (st, none, .noPathFromHere)
          | some (some (new_path, _)) =>
            if new_path = [] then .ok (st, none, .noPathFromHere)
            else hintFrom { st with best_path := some new_path } new_path 0
        | _, _ => .error "AttributeError: NoneType has no attribute lower"

/-- `WordLadderGame.get_current_moves`: `len(self.moves) - 1`. -/
def get_current_moves (st : GameState) : ℤ := (st.moves.length : ℤ) - 1

/-- `WordLadderGame.get_remaining_moves`. -/
def get_remaining_moves (st : GameState) : ℤ :=
  (st.move_limit : ℤ) - get_current_moves st

/-- `WordLadderGame.is_solved`. -/
def is_solved (st : GameState) : Bool :=
  st.current_word = st.target_word

/-- The search function the currently selected algorithm names (the
`algorithms` dispatch table in `get_algorithm_comparison`). -/
def selectedSearch (name : String) :
    WordGraph → Word → Word → Option (List Word × PathStats) :=
  if name = "BFS" then bfs
  else if name = "UCS" then ucs
  else astar

/-! ## The connection/parent invariant (claims C1, C3) -/

/-- Invariant of `build_word_network`: an entry `(u, v)` is recorded in
`word_connections` exactly when `v`'s recorded parent is `u`. -/
def ConnsIff (g : WordGraph) : Prop :=
  ∀ u v : Word, (u, v) ∈ g.word_connections ↔ lookupParent g.word_parents v = some u

/-! ## Walks over the recorded relation

The neighbour relation the program answers after `build_word_network` is,
by `mem_get_connected_words`, determined by `word_parents` alone.  `EEdge`
is that relation; a walk is a non-empty vertex list whose consecutive
entries are related. -/

/-- The undirected edge relation recorded by the build: one endpoint is the
stored parent of the other. -/
def EEdge (ps : List (Word × Word)) (x y : Word) : Prop :=
  lookupParent ps x = some y ∨ lookupParent ps y = some x

instance (ps : List (Word × Word)) (x y : Word) : Decidable (EEdge ps x y) :=
  inferInstanceAs (Decidable
    (lookupParent ps x = some y ∨ lookupParent ps y = some x))

/-- A walk from `u` to `v`: a vertex list starting at `u`, ending at `v`,
with consecutive vertices related by `EEdge`. -/
def IsWalkFrom (ps : List (Word × Word)) (u v : Word) (p : List Word) : Prop :=
  p.head? = some u ∧ p.getLast? = some v ∧ List.Chain' (EEdge ps) p

/-- Connectivity in the recorded relation. -/
def Conn (ps : List (Word × Word)) (u v : Word) : Prop :=
  ∃ p, IsWalkFrom ps u v p

/-- The number of letters of a word outside `a`–`z`.  A recorded child is
its parent with one position overwritten by an alphabet letter, so this
count never increases along parent links; that monotonicity replaces the
(false in general) symmetry of `find_similar_words`. -/
def nonAlphaCount (w : Word) : Nat := (w.filter (fun c => ¬ c ∈ alphabet)).length

/-- Uniqueness of duplicate-free walks between fixed endpoints. -/
def UniqWalks (ps : List (Word × Word)) : Prop :=
  ∀ u v p q, IsWalkFrom ps u v p → IsWalkFrom ps u v q →
    p.Nodup → q.Nodup → p = q

/-! ## The build invariant: the recorded relation has unique walks -/

/-- Every recorded parent entry was written by a processed word (in `P`)
about one of its similar words. -/
def BuildEntries (wl P : List Word) (ps : List (Word × Word)) : Prop :=
  ∀ c pr : Word, (c, pr) ∈ ps → pr ∈ P ∧ pr ∈ wl ∧ c ∈ find_similar_words wl pr

/-- After a word has been processed, every one of its similar words has a
parent. -/
def ProcessedClosed (wl P : List Word) (ps : List (Word × Word)) : Prop :=
  ∀ u ∈ P, ∀ x ∈ find_similar_words wl u, lookupParent ps x ≠ none

/-- The invariant carried through the inner loop of `processWord w`. -/
def InnerInv (wl P : List Word) (w : Word) (g : WordGraph) : Prop :=
  BuildEntries wl (P ++ [w]) g.word_parents ∧
    ProcessedClosed wl P g.word_parents ∧ UniqWalks g.word_parents

/-- The whole-build invariant: some processed set `P` justifies the state. -/
def OuterInv (wl : List Word) (g : WordGraph) : Prop :=
  ∃ P : List Word, BuildEntries wl P g.word_parents ∧
    ProcessedClosed wl P g.word_parents ∧ UniqWalks g.word_parents

/-! ## Claim C1 -/

/-- The dictionary exhibiting the missing edge: three words that pairwise
differ in exactly one position. -/
def dictC1 : List Word := ["cat".toList, "bat".toList, "rat".toList]

/-! ## Claim C4 -/

/-- Whether an exception escapes a call modelled by `Except`. -/
def exceptIsError {α : Type} : Except String α → Bool
  | .error _ => true
  | .ok _ => false

/-- A session in the middle of a game: best path `[cat, cot]`, current word
`cat` (position 0, before the last entry). -/
def stC4 : GameState :=
  { word_graph := build_word_network ["cat".toList, "cot".toList]
    current_word := some "cat".toList
    target_word := some "cot".toList
    moves := ["cat".toList]
    best_path := some ["cat".toList, "cot".toList]
    difficulty := "beginner"
    score := 0
    banned_words := []
    move_limit := 10
    algorithm_stats := []
    selected_algorithm := "A*"
    restricted_letters := []
    min_word_length := 3
    max_word_length := 4 }

/-- A state for the witness: current word `cat`, one move made, limit 10:
the move `cot` is legal. -/
def stC8ok : GameState :=
  { word_graph := build_word_network ["cat".toList, "cot".toList]
    current_word := some "cat".toList
    target_word := some "cot".toList
    moves := ["cat".toList]
    best_path := some ["cat".toList, "cot".toList]
    difficulty := "beginner"
    score := 0
    banned_words := []
    move_limit := 10
    algorithm_stats := []
    selected_algorithm := "A*"
    restricted_letters := []
    min_word_length := 3
    max_word_length := 4 }

/-- The boundary state the original claim gets wrong: the moves list has
length 2 with `move_limit = 2`, so the current move count
`len(moves) - 1 = 1` is still below the limit. -/
def stC8 : GameState :=
  { word_graph := build_word_network ["cat".toList, "cot".toList]
    current_word := some "cat".toList
    target_word := some "cot".toList
    moves := ["dog".toList, "cat".toList]
    best_path := some ["cat".toList, "cot".toList]
    difficulty := "beginner"
    score := 0
    banned_words := []
    move_limit := 2
    algorithm_stats := []
    selected_algorithm := "A*"
    restricted_letters := []
    min_word_length := 3
    max_word_length := 4 }

/-- A session used to witness C10: `dog` is not in the dictionary, so the
move is rejected. -/
def stC10 : GameState :=
  { word_graph := build_word_network ["cat".toList, "cot".toList]
    current_word := some "cat".toList
    target_word := some "cot".toList
    moves := ["cat".toList]
    best_path := some ["cat".toList, "cot".toList]
    difficulty := "beginner"
    score := 0
    banned_words := []
    move_limit := 10
    algorithm_stats := []
    selected_algorithm := "A*"
    restricted_letters := []
    min_word_length := 3
    max_word_length := 4 }

/-! ## Claim C9 -/

/-- The example state of the claim: optimal moves 3 (best path of 4
entries), actual moves 3 (4 moves listed), move limit 10, beginner. -/
def stC9ok : GameState :=
  { word_graph := build_word_network []
    current_word := some "bbb".toList
    target_word := some "bbb".toList
    moves := ["aaa".toList, "aab".toList, "abb".toList, "bbb".toList]
    best_path := some ["aaa".toList, "aab".toList, "abb".toList, "bbb".toList]
    difficulty := "beginner"
    score := 0
    banned_words := []
    move_limit := 10
    algorithm_stats := []
    selected_algorithm := "A*"
    restricted_letters := []
    min_word_length := 3
    max_word_length := 4 }

/-- The state refuting the claimed `floor`: best path of 4 entries (optimal
3), 15 moves listed (actual 14), limit 10, beginner.  The total
`1000·3/14 − 400 = −185.71…` is negative, `int()` truncates to −185, floor
would give −186. -/
def stC9 : GameState :=
  { word_graph := build_word_network []
    current_word := some "bbb".toList
    target_word := some "bbb".toList
    moves := List.replicate 15 "aaa".toList
    best_path := some ["aaa".toList, "aab".toList, "abb".toList, "bbb".toList]
    difficulty := "beginner"
    score := 0
    banned_words := []
    move_limit := 10
    algorithm_stats := []
    selected_algorithm := "A*"
    restricted_letters := []
    min_word_length := 3
    max_word_length := 4 }

/-! ## Loop invariants shared by the three searches -/

/-- Every queued entry carries a duplicate-free walk from the start word to
its word, all of whose vertices have been visited. -/
def EntriesOK (ps : List (Word × Word)) (start : Word) (visited : List Word)
    (queue : List QueueEntry) : Prop :=
  ∀ e ∈ queue, IsWalkFrom ps start e.1 e.2 ∧ e.2.Nodup ∧ ∀ x ∈ e.2, x ∈ visited

/-- The neighbour-expansion step of `bfs`'s loop body, as a named
function. -/
def bfsStep (cp : List Word) (qv : List QueueEntry × List Word)
    (next_word : Word) : List QueueEntry × List Word :=
  if next_word ∈ qv.2 then qv
  else (qv.1 ++ [(next_word, cp ++ [next_word])], next_word :: qv.2)

/-- What neighbour expansion preserves and produces, relative to the popped
entry's ambient `visited` set and remaining queue `rest`. -/
def ExpandInv (wl : List Word) (start : Word) (visited : List Word)
    (rest : List QueueEntry) (qv : List QueueEntry × List Word) : Prop :=
  EntriesOK (build_word_network wl).word_parents start qv.2 qv.1 ∧
  qv.2.Nodup ∧
  (∀ x ∈ qv.2, x ∈ start :: wl) ∧
  (∀ x ∈ visited, x ∈ qv.2) ∧
  (∀ x ∈ qv.2, x ∈ visited ∨ ∃ e ∈ qv.1, e.1 = x) ∧
  (∀ e ∈ rest, e ∈ qv.1) ∧
  qv.1.length + visited.length = rest.length + qv.2.length

/-- The full invariant of `bfs`'s loop (and, through the heap projection,
of `ucs`'s and `astar`'s): queued walks, a duplicate-free visited set of
dictionary words, every visited word still queued or fully expanded, the
target still queued once visited, and enough fuel for the queue. -/
def SearchInv (wl : List Word) (start target : Word) (fuel : Nat)
    (queue : List QueueEntry) (visited : List Word) : Prop :=
  EntriesOK (build_word_network wl).word_parents start visited queue ∧
  visited.Nodup ∧
  (∀ x ∈ visited, x ∈ start :: wl) ∧
  (∀ x ∈ visited,
    (∃ e ∈ queue, e.1 = x) ∨
    ∀ y, EEdge (build_word_network wl).word_parents x y → y ∈ visited) ∧
  (target ∈ visited → ∃ e ∈ queue, e.1 = target) ∧
  queue.length + (wl.length + 1) ≤ fuel + visited.length

/-! ## The heap-based loops, reduced to the queue-based analysis -/

/-- Forgetting priorities and counters: the queue a heap presents. -/
def hproj (q : List HeapEntry) : List QueueEntry := q.map (fun e => e.2.2)

/-- The neighbour-expansion step shared by `ucs`'s and `astar`'s loop
bodies, abstracted over the priority they assign a new entry. -/
def heapStep (prio : List Word → Word → ℕ∞) (cp : List Word)
    (s : List HeapEntry × List Word × Nat) (next_word : Word) :
    List HeapEntry × List Word × Nat :=
  if next_word ∈ s.2.1 then s
  else
    let new_path := cp ++ [next_word]
    (s.1 ++ [(prio new_path next_word, s.2.2, next_word, new_path)],
     next_word :: s.2.1, s.2.2 + 1)

/-- `ucsLoop` and `astarLoop` differ only in the priority they compute; the
common loop, abstracted over it. -/
def heapLoop (g : WordGraph) (target_word : Word)
    (prio : List Word → Word → ℕ∞) :
    Nat → List HeapEntry → List Word → Nat → Option (List Word × PathStats)
  | 0, _, _, _ => none
  | fuel + 1, queue, visited_words, counter =>
    match popMin queue with
    | none => none
    | some (e, rest) =>
      if e.2.2.1 = target_word then
        some (e.2.2.2, get_path_stats e.2.2.2 target_word)
      else
        let st := (get_neighbors g e.2.2.1).foldl (heapStep prio e.2.2.2)
          (rest, visited_words, counter)
        heapLoop g target_word prio fuel st.1 st.2.1 st.2.2

def dictC5 : List Word := ["cat".toList, "cot".toList]

def dictC7 : List Word := ["dog".toList, "dot".toList]

def dictC6 : List Word := ["cat".toList, "cot".toList]

def stC6 : GameState :=
  { word_graph := build_word_network dictC6
    current_word := none
    target_word := none
    moves := []
    best_path := none
    difficulty := "beginner"
    score := 0
    banned_words := []
    move_limit := 10
    algorithm_stats := []
    selected_algorithm := "BFS"
    restricted_letters := []
    min_word_length := 3
    max_word_length := 5 }

/-! ## Theorems -/

theorem pyMin_eq_min (a b : ℚ) : pyMin a b = min a b := (min_def a b).symm

/-! ## Fold helpers -/

theorem foldl_preserve {α β : Type} (P : β → Prop) (f : β → α → β)
    (l : List α) (b : β) (h0 : P b) (hstep : ∀ b a, a ∈ l → P b → P (f b a)) :
    P (l.foldl f b) := by
  induction l generalizing b with
  | nil => exact h0
  | cons a l ih =>
    exact ih (f b a) (hstep b a (List.mem_cons_self a l) h0)
      (fun b a ha hb => hstep b a (List.mem_cons_of_mem _ ha) hb)

theorem lookupParent_cons (s w : Word) (ps : List (Word × Word)) (v : Word) :
    lookupParent ((s, w) :: ps) v = if v = s then some w else lookupParent ps v := by
  unfold lookupParent
  rcases eq_or_ne v s with h | h
  · subst h
    rw [List.find?_cons_of_pos _ (by simp), if_pos rfl]
    simp
  · rw [List.find?_cons_of_neg _ (by simp [Ne.symm h]), if_neg h]

theorem connsIff_adoptStep (g : WordGraph) (hg : ConnsIff g) (w s : Word) :
    ConnsIff (adoptStep g w s) := by
  intro u v
  unfold adoptStep
  by_cases hnone : lookupParent g.word_parents s = none
  · rw [if_pos hnone]
    show (u, v) ∈ (w, s) :: g.word_connections ↔
      lookupParent ((s, w) :: g.word_parents) v = some u
    rw [lookupParent_cons]
    by_cases hv : v = s
    · subst hv
      rw [if_pos rfl]
      constructor
      · intro h
        rcases List.mem_cons.mp h with h | h
        · injection h with h1 _
          rw [h1]
        · have := (hg u v).mp h
          rw [hnone] at this
          exact absurd this (by simp)
      · intro h
        injection h with h1
        rw [← h1]
        exact List.mem_cons_self _ _
    · rw [if_neg hv, ← hg u v]
      constructor
      · intro h
        rcases List.mem_cons.mp h with h | h
        · injection h with _ h2
          exact absurd h2 hv
        · exact h
      · exact fun h => List.mem_cons_of_mem _ h
  · rw [if_neg hnone]
    exact hg u v

theorem connsIff_build (word_list : List Word) :
    ConnsIff (build_word_network word_list) := by
  unfold build_word_network
  apply foldl_preserve ConnsIff
  · intro u v
    simp [lookupParent]
  · intro g w _ hg
    unfold processWord
    apply foldl_preserve ConnsIff
    · exact hg
    · intro g' s _ hg'
      exact connsIff_adoptStep g' hg' w s

/-- Membership in `get_connected_words` for a graph satisfying the
invariant: `v` is connected to `u` iff one of them is the recorded parent
of the other. -/
theorem mem_get_connected_words (g : WordGraph) (hg : ConnsIff g) (u v : Word) :
    v ∈ get_connected_words g u ↔
      (lookupParent g.word_parents v = some u ∨ lookupParent g.word_parents u = some v) := by
  unfold get_connected_words
  simp only [List.mem_append, List.mem_map, List.mem_filter]
  constructor
  · rintro (⟨e, ⟨he, heq⟩, rfl⟩ | h)
    · left
      have : e = (u, e.2) := by
        have := of_decide_eq_true heq
        exact Prod.ext this rfl
      rw [this] at he
      exact (hg u e.2).mp he
    · right
      cases hu : lookupParent g.word_parents u with
      | none => simp [hu] at h
      | some x => simp [hu] at h; rw [h]
  · rintro (h | h)
    · left
      exact ⟨(u, v), ⟨(hg u v).mpr h, by simp⟩, rfl⟩
    · right
      simp [h]

/-- Symmetry of the built neighbour relation (claim C3), as a statement
about the two parent lookups. -/
theorem mem_connected_build (word_list : List Word) (u v : Word) :
    v ∈ get_connected_words (build_word_network word_list) u ↔
      (lookupParent (build_word_network word_list).word_parents v = some u ∨
       lookupParent (build_word_network word_list).word_parents u = some v) :=
  mem_get_connected_words _ (connsIff_build word_list) u v

theorem EEdge_symm {ps : List (Word × Word)} {x y : Word}
    (h : EEdge ps x y) : EEdge ps y x := h.elim Or.inr Or.inl

theorem walk_singleton (ps : List (Word × Word)) (u : Word) :
    IsWalkFrom ps u u [u] := ⟨rfl, rfl, List.chain'_singleton u⟩

theorem walk_ne_nil {ps : List (Word × Word)} {u v : Word} {p : List Word}
    (h : IsWalkFrom ps u v p) : p ≠ [] := by
  intro hp
  rw [hp] at h
  exact Option.noConfusion h.1

theorem walk_reverse {ps : List (Word × Word)} {u v : Word} {p : List Word}
    (h : IsWalkFrom ps u v p) : IsWalkFrom ps v u p.reverse := by
  obtain ⟨h1, h2, h3⟩ := h
  refine ⟨?_, ?_, ?_⟩
  · rw [List.head?_reverse]
    exact h2
  · rw [List.getLast?_reverse]
    exact h1
  · rw [List.chain'_reverse]
    exact List.Chain'.imp (fun a b hab => EEdge_symm hab) h3

theorem walk_trans {ps : List (Word × Word)} {u m v : Word} {p q : List Word}
    (hp : IsWalkFrom ps u m p) (hq : IsWalkFrom ps m v q) :
    IsWalkFrom ps u v (p ++ q.tail) := by
  obtain ⟨hp1, hp2, hp3⟩ := hp
  obtain ⟨hq1, hq2, hq3⟩ := hq
  cases q with
  | nil => exact Option.noConfusion hq1
  | cons m' q' =>
    have hm : m' = m := by simpa using hq1
    rw [hm] at hq2 hq3
    simp only [List.tail_cons]
    refine ⟨?_, ?_, ?_⟩
    · cases p with
      | nil => exact Option.noConfusion hp1
      | cons a p' => simpa using hp1
    · cases q' with
      | nil =>
        rw [List.append_nil]
        simp only [List.getLast?_singleton, Option.some.injEq] at hq2
        rw [hp2, hq2]
      | cons b q'' =>
        rw [List.getLast?_append]
        rw [List.getLast?_cons_cons] at hq2
        rw [hq2]
        rfl
    · rcases List.chain'_cons'.mp hq3 with ⟨hlink, hq3'⟩
      refine List.Chain'.append hp3 hq3' ?_
      intro x hx y hy
      rw [hp2] at hx
      simp only [Option.mem_def, Option.some.injEq] at hx
      rw [← hx]
      exact hlink y hy

/-- Appending one more edge to a walk. -/
theorem walk_snoc {ps : List (Word × Word)} {u c y : Word} {p : List Word}
    (hp : IsWalkFrom ps u c p) (he : EEdge ps c y) :
    IsWalkFrom ps u y (p ++ [y]) := by
  have hcy : IsWalkFrom ps c y [c, y] :=
    ⟨rfl, rfl, List.chain'_pair.mpr he⟩
  exact walk_trans hp hcy

theorem Conn.refl (ps : List (Word × Word)) (u : Word) : Conn ps u u :=
  ⟨[u], walk_singleton ps u⟩

theorem Conn.symm {ps : List (Word × Word)} {u v : Word}
    (h : Conn ps u v) : Conn ps v u :=
  h.elim fun p hp => ⟨p.reverse, walk_reverse hp⟩

theorem Conn.trans {ps : List (Word × Word)} {u m v : Word}
    (h1 : Conn ps u m) (h2 : Conn ps m v) : Conn ps u v := by
  obtain ⟨p, hp⟩ := h1
  obtain ⟨q, hq⟩ := h2
  exact ⟨p ++ q.tail, walk_trans hp hq⟩

/-- Every walk contains a duplicate-free walk between the same endpoints
that is no longer. -/
theorem walk_shorten {ps : List (Word × Word)} :
    ∀ (n : Nat) (p : List Word) (u v : Word), p.length ≤ n →
      IsWalkFrom ps u v p →
      ∃ q, IsWalkFrom ps u v q ∧ q.Nodup ∧ q.length ≤ p.length ∧ q ⊆ p := by
  intro n
  induction n with
  | zero =>
    intro p u v hlen hp
    exact absurd (List.length_eq_zero.mp (Nat.le_zero.mp hlen)) (walk_ne_nil hp)
  | succ n ih =>
    intro p u v hlen hp
    obtain ⟨h1, h2, h3⟩ := hp
    cases p with
    | nil => exact Option.noConfusion h1
    | cons x rest =>
      have hxu : x = u := by simpa using h1
      subst hxu
      by_cases hmem : x ∈ rest
      · obtain ⟨s, t, hst⟩ := List.append_of_mem hmem
        have hre : x :: rest = (x :: s) ++ (x :: t) := by
          rw [hst]
          simp
        have hsuffix : (x :: t) <:+ (x :: rest) := ⟨x :: s, hre.symm⟩
        have hglast : (x :: t).getLast? = some v := by
          rw [hre, List.getLast?_append] at h2
          cases hgl : (x :: t).getLast? with
          | none => exact absurd hgl (by simp)
          | some w =>
            rw [hgl, Option.or_some] at h2
            exact h2
        have hwalk : IsWalkFrom ps x v (x :: t) := ⟨rfl, hglast, h3.suffix hsuffix⟩
        have hrlen : t.length + 1 ≤ rest.length := by
          rw [hst]
          simp only [List.length_append, List.length_cons]
          omega
        have hlt : (x :: t).length ≤ n := by
          simp only [List.length_cons] at hlen ⊢
          omega
        obtain ⟨q, hq, hqnd, hqlen, hqsub⟩ := ih (x :: t) x v hlt hwalk
        refine ⟨q, hq, hqnd, ?_, ?_⟩
        · simp only [List.length_cons] at hqlen ⊢
          omega
        · intro a ha
          rcases List.mem_cons.mp (hqsub ha) with h | h
          · exact h ▸ List.mem_cons_self _ _
          · refine List.mem_cons_of_mem _ ?_
            rw [hst]
            exact List.mem_append_right _ (List.mem_cons_of_mem _ h)
      · cases rest with
        | nil =>
          have hv : x = v := by simpa using h2
          subst hv
          exact ⟨[x], walk_singleton ps x, List.nodup_singleton x, by simp, by simp⟩
        | cons y rest' =>
          have hwalk : IsWalkFrom ps y v (y :: rest') := by
            refine ⟨rfl, ?_, (List.chain'_cons'.mp h3).2⟩
            rw [List.getLast?_cons_cons] at h2
            exact h2
          have hlen' : (y :: rest').length ≤ n := by
            simp only [List.length_cons] at hlen ⊢
            omega
          obtain ⟨q, hq, hqnd, hqlen, hqsub⟩ := ih (y :: rest') y v hlen' hwalk
          have hedge : EEdge ps x y := (List.chain'_cons.mp h3).1
          have hxq : x ∉ q := fun hc => hmem (hqsub hc)
          obtain ⟨hq1, hq2, hq3⟩ := hq
          refine ⟨x :: q, ⟨rfl, ?_, ?_⟩, ?_, ?_, ?_⟩
          · cases q with
            | nil => exact Option.noConfusion hq1
            | cons b q'' =>
              rw [List.getLast?_cons_cons]
              exact hq2
          · rw [List.chain'_cons']
            refine ⟨?_, hq3⟩
            intro h hh
            rw [hq1] at hh
            simp only [Option.mem_def, Option.some.injEq] at hh
            rw [← hh]
            exact hedge
          · exact List.nodup_cons.mpr ⟨hxq, hqnd⟩
          · simp only [List.length_cons] at hqlen ⊢
            omega
          · intro a ha
            rcases List.mem_cons.mp ha with h | h
            · exact h ▸ List.mem_cons_self _ _
            · exact List.mem_cons_of_mem _ (hqsub h)

/-! ## Properties of find_similar_words -/

theorem mem_find_similar {wl : List Word} {u x : Word} :
    x ∈ find_similar_words wl u ↔
      ∃ p, p < u.length ∧ ∃ c, c ∈ alphabet ∧ c ≠ u.getD p ' ' ∧ x = u.set p c ∧ x ∈ wl := by
  simp only [find_similar_words, List.mem_flatMap, List.mem_range, List.mem_filterMap]
  constructor
  · rintro ⟨p, hp, c, hc, hfc⟩
    split_ifs at hfc with h1 h2
    · injection hfc with h
      exact ⟨p, hp, c, hc, h1, h.symm, h ▸ h2⟩
  · rintro ⟨p, hp, c, hc, h1, rfl, hwl⟩
    refine ⟨p, hp, c, hc, ?_⟩
    rw [if_pos h1, if_pos hwl]

theorem fs_mem_wl {wl : List Word} {u x : Word}
    (h : x ∈ find_similar_words wl u) : x ∈ wl := by
  obtain ⟨p, hp, c, hc, h1, rfl, hwl⟩ := mem_find_similar.mp h
  exact hwl

theorem fs_ne {wl : List Word} {u x : Word}
    (h : x ∈ find_similar_words wl u) : x ≠ u := by
  obtain ⟨p, hp, c, hc, h1, rfl, hwl⟩ := mem_find_similar.mp h
  intro he
  apply h1
  have := congrArg (fun l => l.getD p ' ') he
  simp only [List.getD_eq_getElem?_getD] at this
  rw [List.getElem?_set_self (by simpa using hp)] at this
  simpa using this

theorem nonAlphaCount_set_le :
    ∀ (u : Word) (p : Nat) (c : Char), c ∈ alphabet →
      nonAlphaCount (u.set p c) ≤ nonAlphaCount u := by
  intro u
  induction u with
  | nil => intro p c _; simp [nonAlphaCount]
  | cons a u' ih =>
    intro p c hc
    cases p with
    | zero =>
      simp only [List.set_cons_zero, nonAlphaCount, List.filter_cons]
      rw [if_neg (by simpa using hc)]
      split
      · simp
      · simp
    | succ p' =>
      simp only [List.set_cons_succ, nonAlphaCount, List.filter_cons]
      split
      · simpa [nonAlphaCount] using Nat.succ_le_succ (ih p' c hc)
      · exact ih p' c hc

theorem nonAlphaCount_set_lt :
    ∀ (u : Word) (p : Nat) (c : Char), c ∈ alphabet → p < u.length →
      ¬ u.getD p ' ' ∈ alphabet →
      nonAlphaCount (u.set p c) < nonAlphaCount u := by
  intro u
  induction u with
  | nil => intro p c _ hp; simp at hp
  | cons a u' ih =>
    intro p c hc hp ha
    cases p with
    | zero =>
      simp only [List.getD_cons_zero] at ha
      simp only [List.set_cons_zero, nonAlphaCount, List.filter_cons]
      rw [if_neg (by simpa using hc), if_pos (by simpa using ha)]
      simp [nonAlphaCount]
    | succ p' =>
      simp only [List.getD_cons_succ] at ha
      simp only [List.length_cons] at hp
      have := ih p' c hc (by omega) ha
      simp only [List.set_cons_succ, nonAlphaCount, List.filter_cons]
      split
      · simpa [nonAlphaCount] using Nat.succ_lt_succ this
      · exact this

theorem fs_nonAlpha_le {wl : List Word} {u x : Word}
    (h : x ∈ find_similar_words wl u) : nonAlphaCount x ≤ nonAlphaCount u := by
  obtain ⟨p, hp, c, hc, h1, rfl, hwl⟩ := mem_find_similar.mp h
  exact nonAlphaCount_set_le u p c hc

theorem set_getD_self :
    ∀ {α : Type} (l : List α) (i : Nat) (d : α), l.set i (l.getD i d) = l := by
  intro α l
  induction l with
  | nil => intro i d; simp
  | cons a l' ih =>
    intro i d
    cases i with
    | zero => simp
    | succ i' =>
      simp only [List.getD_cons_succ, List.set_cons_succ]
      rw [ih]

/-- Reversal of a similar-step when the overwritten letter was itself in
the alphabet — guaranteed here by equality of the non-alphabet counts. -/
theorem fs_back {wl : List Word} {u x : Word}
    (hx : x ∈ find_similar_words wl u) (hu : u ∈ wl)
    (hcount : nonAlphaCount u ≤ nonAlphaCount x) :
    u ∈ find_similar_words wl x := by
  obtain ⟨p, hp, c, hc, h1, rfl, hwl⟩ := mem_find_similar.mp hx
  have hlen : (u.set p c).length = u.length := List.length_set u p c
  have hgd : u.getD p ' ' ∈ alphabet := by
    by_contra hna
    exact absurd hcount (Nat.not_le.mpr (nonAlphaCount_set_lt u p c hc hp hna))
  refine mem_find_similar.mpr ⟨p, by omega, u.getD p ' ', hgd, ?_, ?_, hu⟩
  · have : (u.set p c).getD p ' ' = c := by
      simp only [List.getD_eq_getElem?_getD]
      rw [List.getElem?_set_self (by simpa using hp)]
      rfl
    rw [this]
    exact fun hcon => h1 hcon.symm
  · rw [List.set_set, set_getD_self]

/-! ## Association-list facts -/

theorem lookup_mem {ps : List (Word × Word)} {c pr : Word}
    (h : lookupParent ps c = some pr) : (c, pr) ∈ ps := by
  unfold lookupParent at h
  cases hf : ps.find? (fun e => e.1 = c) with
  | none => rw [hf] at h; exact Option.noConfusion h
  | some e =>
    rw [hf] at h
    have hm := List.mem_of_find?_eq_some hf
    have hp := List.find?_some hf
    simp only [decide_eq_true_eq] at hp
    injection h with h
    have he : e = (c, pr) := by
      cases e with
      | mk e1 e2 =>
        simp only at hp h
        rw [hp, h]
    rw [← he]
    exact hm

theorem mem_lookup_ne_none {ps : List (Word × Word)} {c pr : Word}
    (h : (c, pr) ∈ ps) : lookupParent ps c ≠ none := by
  unfold lookupParent
  intro hn
  rw [Option.map_eq_none'] at hn
  rw [List.find?_eq_none] at hn
  exact absurd (by simp : decide (((c, pr) : Word × Word).1 = c) = true) (hn (c, pr) h)

theorem lookup_ne_none_mono {ps : List (Word × Word)} {e : Word × Word} {x : Word}
    (h : lookupParent ps x ≠ none) : lookupParent (e :: ps) x ≠ none := by
  cases e with
  | mk c pr =>
    rw [lookupParent_cons]
    by_cases hx : x = c
    · rw [if_pos hx]; simp
    · rw [if_neg hx]; exact h

/-! ## Down-chains: walks out of an unparented vertex -/

theorem chain'_down_aux (ps : List (Word × Word)) :
    ∀ (p : List Word) (y x : Word),
      lookupParent ps y = some x → x ∉ y :: p →
      List.Chain' (EEdge ps) (y :: p) → (y :: p).Nodup →
      List.Chain' (fun a b => lookupParent ps b = some a) (y :: p) := by
  intro p
  induction p with
  | nil => intro y x _ _ _ _; exact List.chain'_singleton y
  | cons z p' ih =>
    intro y x hy hx hch hnd
    have hstep : EEdge ps y z := (List.chain'_cons.mp hch).1
    have hdown : lookupParent ps z = some y := by
      rcases hstep with h | h
      · rw [hy] at h
        injection h with h
        exact absurd (by rw [h]; exact List.mem_cons_of_mem y (List.mem_cons_self z p')) hx
      · exact h
    rw [List.chain'_cons]
    exact ⟨hdown, ih z y hdown (List.nodup_cons.mp hnd).1
      (List.chain'_cons.mp hch).2 (List.nodup_cons.mp hnd).2⟩

theorem walk_down_of_root {ps : List (Word × Word)} {s v : Word} {p : List Word}
    (hroot : lookupParent ps s = none) (hw : IsWalkFrom ps s v p) (hnd : p.Nodup) :
    List.Chain' (fun a b => lookupParent ps b = some a) p := by
  obtain ⟨h1, h2, h3⟩ := hw
  cases p with
  | nil => exact List.chain'_nil
  | cons a rest =>
    have has : a = s := by simpa using h1
    cases rest with
    | nil => exact List.chain'_singleton a
    | cons y rest' =>
      have hstep : EEdge ps a y := (List.chain'_cons.mp h3).1
      have hdown : lookupParent ps y = some a := by
        rcases hstep with h | h
        · rw [has, hroot] at h
          exact Option.noConfusion h
        · exact h
      rw [List.chain'_cons]
      exact ⟨hdown, chain'_down_aux ps rest' y a hdown (List.nodup_cons.mp hnd).1
        (List.chain'_cons.mp h3).2 (List.nodup_cons.mp hnd).2⟩

theorem down_chain_count {wl : List Word} {ps : List (Word × Word)}
    (hent : ∀ c pr : Word, (c, pr) ∈ ps → c ∈ find_similar_words wl pr) :
    ∀ (l : List Word) (a b : Word),
      List.Chain' (fun a b => lookupParent ps b = some a) (a :: l) →
      (a :: l).getLast? = some b → nonAlphaCount b ≤ nonAlphaCount a := by
  intro l
  induction l with
  | nil =>
    intro a b _ h2
    have hab : a = b := by simpa using h2
    rw [hab]
  | cons y l' ih =>
    intro a b hch h2
    have hdown : lookupParent ps y = some a := (List.chain'_cons.mp hch).1
    have hle : nonAlphaCount y ≤ nonAlphaCount a :=
      fs_nonAlpha_le (hent y a (lookup_mem hdown))
    have hrec := ih y b (List.chain'_cons.mp hch).2
      (by rw [← List.getLast?_cons_cons (a := a)]; exact h2)
    omega

/-! ## Adding one parent entry: edge analysis and the bridge lemma -/

theorem EEdge_cons_elim {ps : List (Word × Word)} {s w x y : Word}
    (hE : EEdge ((s, w) :: ps) x y) :
    EEdge ps x y ∨ (x = s ∧ y = w) ∨ (x = w ∧ y = s) := by
  rcases hE with h | h
  · rw [lookupParent_cons] at h
    by_cases hx : x = s
    · rw [if_pos hx] at h
      injection h with h
      exact Or.inr (Or.inl ⟨hx, h.symm⟩)
    · rw [if_neg hx] at h
      exact Or.inl (Or.inl h)
  · rw [lookupParent_cons] at h
    by_cases hy : y = s
    · rw [if_pos hy] at h
      injection h with h
      exact Or.inr (Or.inr ⟨h.symm, hy⟩)
    · rw [if_neg hy] at h
      exact Or.inl (Or.inr h)

theorem chain'_elim_special {ps : List (Word × Word)} {s w : Word} :
    ∀ (l : List Word), s ∉ l →
      List.Chain' (EEdge ((s, w) :: ps)) l → List.Chain' (EEdge ps) l := by
  intro l
  induction l with
  | nil => intro _ _; exact List.chain'_nil
  | cons a l' ih =>
    intro hs hch
    rw [List.chain'_cons'] at hch ⊢
    obtain ⟨hhead, htail⟩ := hch
    refine ⟨?_, ih (fun h => hs (List.mem_cons_of_mem _ h)) htail⟩
    intro y hy
    have hy' : y ∈ l' := List.mem_of_mem_head? hy
    rcases EEdge_cons_elim (hhead y hy) with h | h | h
    · exact h
    · exact absurd (by rw [← h.1]; exact List.mem_cons_self a l') hs
    · exact absurd (by rw [← h.2]; exact List.mem_cons_of_mem _ hy') hs

theorem chain'_elim_special_head {ps : List (Word × Word)} {s w : Word}
    (hsw : s ≠ w) :
    ∀ (l : List Word), s ∉ l → w ∉ s :: l →
      List.Chain' (EEdge ((s, w) :: ps)) (s :: l) → List.Chain' (EEdge ps) (s :: l) := by
  intro l hs hw hch
  rw [List.chain'_cons'] at hch ⊢
  obtain ⟨hhead, htail⟩ := hch
  refine ⟨?_, chain'_elim_special l hs htail⟩
  intro y hy
  have hy' : y ∈ l := List.mem_of_mem_head? hy
  rcases EEdge_cons_elim (hhead y hy) with h | h | h
  · exact h
  · exact absurd (by rw [← h.2]; exact List.mem_cons_of_mem _ hy') hw
  · exact absurd h.1 hsw

theorem walk_decompose {ps : List (Word × Word)} {s w : Word}
    (hsw : s ≠ w) :
    ∀ (r : List Word) (u v : Word),
      IsWalkFrom ((s, w) :: ps) u v r → r.Nodup →
      IsWalkFrom ps u v r ∨
      (∃ r1 r2, r = r1 ++ r2 ∧ IsWalkFrom ps u s r1 ∧ IsWalkFrom ps w v r2) ∨
      (∃ r1 r2, r = r1 ++ r2 ∧ IsWalkFrom ps u w r1 ∧ IsWalkFrom ps s v r2) := by
  intro r
  induction r with
  | nil => intro u v hr _; exact absurd rfl (walk_ne_nil hr)
  | cons a r' ih =>
    intro u v hr hnd
    obtain ⟨h1, h2, h3⟩ := hr
    cases r' with
    | nil =>
      left
      exact ⟨h1, h2, List.chain'_singleton a⟩
    | cons b r'' =>
      have hstep : EEdge ((s, w) :: ps) a b := (List.chain'_cons.mp h3).1
      have htail2 : (b :: r'').getLast? = some v := by
        rw [List.getLast?_cons_cons] at h2
        exact h2
      have htailwalk : IsWalkFrom ((s, w) :: ps) b v (b :: r'') :=
        ⟨rfl, htail2, (List.chain'_cons.mp h3).2⟩
      have hndtail : (b :: r'').Nodup := (List.nodup_cons.mp hnd).2
      have hanotin : a ∉ b :: r'' := (List.nodup_cons.mp hnd).1
      rcases EEdge_cons_elim hstep with hE | hsp | hsp
      · rcases ih b v htailwalk hndtail with hL | hM | hT
        · left
          obtain ⟨hb1, hb2, hb3⟩ := hL
          exact ⟨h1, by rw [List.getLast?_cons_cons]; exact hb2,
            List.chain'_cons.mpr ⟨hE, hb3⟩⟩
        · right; left
          obtain ⟨r1, r2, heq, hw1, hw2⟩ := hM
          refine ⟨a :: r1, r2, by rw [List.cons_append, ← heq], ?_, hw2⟩
          obtain ⟨hr11, hr12, hr13⟩ := hw1
          refine ⟨h1, ?_, ?_⟩
          · cases r1 with
            | nil => exact Option.noConfusion hr11
            | cons c r1' =>
              rw [List.getLast?_cons_cons]
              exact hr12
          · rw [List.chain'_cons']
            refine ⟨?_, hr13⟩
            intro z hz
            rw [hr11] at hz
            simp only [Option.mem_def, Option.some.injEq] at hz
            rw [← hz]
            exact hE
        · right; right
          obtain ⟨r1, r2, heq, hw1, hw2⟩ := hT
          refine ⟨a :: r1, r2, by rw [List.cons_append, ← heq], ?_, hw2⟩
          obtain ⟨hr11, hr12, hr13⟩ := hw1
          refine ⟨h1, ?_, ?_⟩
          · cases r1 with
            | nil => exact Option.noConfusion hr11
            | cons c r1' =>
              rw [List.getLast?_cons_cons]
              exact hr12
          · rw [List.chain'_cons']
            refine ⟨?_, hr13⟩
            intro z hz
            rw [hr11] at hz
            simp only [Option.mem_def, Option.some.injEq] at hz
            rw [← hz]
            exact hE
      · right; left
        refine ⟨[a], b :: r'', rfl, ?_, ?_⟩
        · refine ⟨h1, ?_, List.chain'_singleton a⟩
          rw [List.getLast?_singleton, hsp.1]
        · have hs_notin : s ∉ b :: r'' := by
            rw [← hsp.1]
            exact hanotin
          refine ⟨?_, htail2, chain'_elim_special _ hs_notin htailwalk.2.2⟩
          rw [hsp.2]
          rfl
      · right; right
        refine ⟨[a], b :: r'', rfl, ?_, ?_⟩
        · refine ⟨h1, ?_, List.chain'_singleton a⟩
          rw [List.getLast?_singleton, hsp.1]
        · have hb : b = s := hsp.2
          have hw_notin : w ∉ b :: r'' := by
            rw [← hsp.1]
            exact hanotin
          have hs_notin : s ∉ r'' := by
            rw [← hb]
            exact (List.nodup_cons.mp hndtail).1
          have hch : List.Chain' (EEdge ps) (s :: r'') := by
            apply chain'_elim_special_head hsw r'' hs_notin
            · intro hc
              apply hw_notin
              rw [hb]
              exact hc
            · have h := htailwalk.2.2
              rw [hb] at h
              exact h
          refine ⟨by rw [hb]; rfl, ?_, by rw [hb]; exact hch⟩
          exact htail2

theorem uniq_bridge {ps : List (Word × Word)} {s w : Word}
    (hsw : s ≠ w)
    (hdisc : ¬ Conn ps s w) (huniq : UniqWalks ps) :
    UniqWalks ((s, w) :: ps) := by
  intro u v p q hp hq hpnd hqnd
  have hConn : ∀ {a b : Word} {r : List Word}, IsWalkFrom ps a b r → Conn ps a b :=
    fun hr => ⟨_, hr⟩
  rcases walk_decompose hsw p u v hp hpnd with hpL | hpM | hpT <;>
    rcases walk_decompose hsw q u v hq hqnd with hqL | hqM | hqT
  · exact huniq u v p q hpL hqL hpnd hqnd
  · obtain ⟨q1, q2, hqeq, hq1, hq2⟩ := hqM
    exact absurd (((hConn hq1).symm.trans (hConn hpL)).trans (hConn hq2).symm) hdisc
  · obtain ⟨q1, q2, hqeq, hq1, hq2⟩ := hqT
    exact absurd ((hConn hq2).trans ((hConn hpL).symm.trans (hConn hq1))) hdisc
  · obtain ⟨p1, p2, hpeq, hp1, hp2⟩ := hpM
    exact absurd (((hConn hp1).symm.trans (hConn hqL)).trans (hConn hp2).symm) hdisc
  · obtain ⟨p1, p2, hpeq, hp1, hp2⟩ := hpM
    obtain ⟨q1, q2, hqeq, hq1, hq2⟩ := hqM
    rw [hpeq] at hpnd
    rw [hqeq] at hqnd
    have e1 : p1 = q1 := huniq u s p1 q1 hp1 hq1
      (List.Nodup.of_append_left hpnd) (List.Nodup.of_append_left hqnd)
    have e2 : p2 = q2 := huniq w v p2 q2 hp2 hq2
      (List.Nodup.of_append_right hpnd) (List.Nodup.of_append_right hqnd)
    rw [hpeq, hqeq, e1, e2]
  · obtain ⟨p1, p2, hpeq, hp1, hp2⟩ := hpM
    obtain ⟨q1, q2, hqeq, hq1, hq2⟩ := hqT
    exact absurd ((hConn hp1).symm.trans (hConn hq1)) hdisc
  · obtain ⟨p1, p2, hpeq, hp1, hp2⟩ := hpT
    exact absurd ((hConn hp2).trans ((hConn hqL).symm.trans (hConn hp1))) hdisc
  · obtain ⟨p1, p2, hpeq, hp1, hp2⟩ := hpT
    obtain ⟨q1, q2, hqeq, hq1, hq2⟩ := hqM
    exact absurd ((hConn hq1).symm.trans (hConn hp1)) hdisc
  · obtain ⟨p1, p2, hpeq, hp1, hp2⟩ := hpT
    obtain ⟨q1, q2, hqeq, hq1, hq2⟩ := hqT
    rw [hpeq] at hpnd
    rw [hqeq] at hqnd
    have e1 : p1 = q1 := huniq u w p1 q1 hp1 hq1
      (List.Nodup.of_append_left hpnd) (List.Nodup.of_append_left hqnd)
    have e2 : p2 = q2 := huniq s v p2 q2 hp2 hq2
      (List.Nodup.of_append_right hpnd) (List.Nodup.of_append_right hqnd)
    rw [hpeq, hqeq, e1, e2]

theorem adopt_lookup_mono (g : WordGraph) (w s' x : Word)
    (h : lookupParent g.word_parents x ≠ none) :
    lookupParent (adoptStep g w s').word_parents x ≠ none := by
  unfold adoptStep
  by_cases hcase : lookupParent g.word_parents s' = none
  · rw [if_pos hcase]
    exact lookup_ne_none_mono h
  · rw [if_neg hcase]
    exact h

/-- The heart of the development: one adoption preserves the invariant.
When `w` adopts `s`, either the `{s, w}` edge is already recorded the
other way round (the relation is unchanged), or `s` and `w` were not
connected — else a duplicate-free walk `s, x₁, …, w` would exist, which the
all-down-chain analysis plus the non-alphabet-count monotonicity turns
into `s ∈ find_similar_words wl x₁` for the already-processed `x₁`, whose
processing would then have given `s` a parent, contradicting the adoption
condition. -/
theorem innerInv_adoptStep {wl P : List Word} {w : Word} (hw : w ∈ wl) {s : Word}
    (hs : s ∈ find_similar_words wl w) {g : WordGraph} (hinv : InnerInv wl P w g) :
    InnerInv wl P w (adoptStep g w s) ∧
      lookupParent (adoptStep g w s).word_parents s ≠ none := by
  obtain ⟨hent, hproc, huniq⟩ := hinv
  unfold adoptStep
  by_cases hnone : lookupParent g.word_parents s = none
  · rw [if_pos hnone]
    have hsw : s ≠ w := fs_ne hs
    refine ⟨⟨?_, ?_, ?_⟩, ?_⟩
    · intro c pr hmem
      rcases List.mem_cons.mp hmem with he | he
      · rw [Prod.mk.injEq] at he
        obtain ⟨rfl, rfl⟩ := he
        exact ⟨List.mem_append_right _ (List.mem_singleton.mpr rfl), hw, hs⟩
      · exact hent c pr he
    · intro u hu x hx
      exact lookup_ne_none_mono (hproc u hu x hx)
    · by_cases hmut : lookupParent g.word_parents w = some s
      · intro u v p q hp hq hpnd hqnd
        have habsorb : ∀ x y, EEdge ((s, w) :: g.word_parents) x y →
            EEdge g.word_parents x y := by
          intro x y hE
          rcases EEdge_cons_elim hE with h | h | h
          · exact h
          · right
            rw [h.1, h.2]
            exact hmut
          · left
            rw [h.1, h.2]
            exact hmut
        apply huniq u v p q ?_ ?_ hpnd hqnd
        · exact ⟨hp.1, hp.2.1, List.Chain'.imp habsorb hp.2.2⟩
        · exact ⟨hq.1, hq.2.1, List.Chain'.imp habsorb hq.2.2⟩
      · apply uniq_bridge hsw ?_ huniq
        rintro ⟨p0, hp0⟩
        obtain ⟨p, hpwalk, hpnd, _, _⟩ :=
          walk_shorten p0.length p0 s w (Nat.le_refl _) hp0
        obtain ⟨hp1, hp2, hp3⟩ := hpwalk
        cases p with
        | nil => exact Option.noConfusion hp1
        | cons a rest =>
          have has : a = s := by simpa using hp1
          cases rest with
          | nil =>
            have haw : a = w := by simpa using hp2
            exact hsw (has.symm.trans haw)
          | cons x1 rest' =>
            have hroot : lookupParent g.word_parents a = none := by
              rw [has]
              exact hnone
            have hdownch := walk_down_of_root (has ▸ hnone : lookupParent g.word_parents a = none)
              ⟨by simp, hp2, hp3⟩ hpnd
            have hd1 : lookupParent g.word_parents x1 = some a :=
              (List.chain'_cons.mp hdownch).1
            have hentry1 := hent x1 a (lookup_mem hd1)
            have hx1fs : x1 ∈ find_similar_words wl a := hentry1.2.2
            cases rest' with
            | nil =>
              have hx1w : x1 = w := by simpa using hp2
              apply hmut
              rw [← hx1w, ← has]
              exact hd1
            | cons x2 rest'' =>
              have hd2 : lookupParent g.word_parents x2 = some x1 :=
                (List.chain'_cons.mp (List.chain'_cons.mp hdownch).2).1
              have hentry2 := hent x2 x1 (lookup_mem hd2)
              have hlastmem : w ∈ x2 :: rest'' := by
                have : (x2 :: rest'').getLast? = some w := by
                  rw [← List.getLast?_cons_cons (a := x1), ← List.getLast?_cons_cons (a := a)]
                  exact hp2
                exact List.mem_of_mem_getLast? this
              have hx1P : x1 ∈ P := by
                rcases List.mem_append.mp hentry2.1 with h | h
                · exact h
                · have hx1w : x1 = w := by simpa using h
                  have hx1notin : x1 ∉ x2 :: rest'' :=
                    (List.nodup_cons.mp (List.nodup_cons.mp hpnd).2).1
                  exact absurd (by rw [hx1w]; exact hlastmem) hx1notin
              have hswl : s ∈ wl := fs_mem_wl hs
              have hcount1 : nonAlphaCount s ≤ nonAlphaCount w := fs_nonAlpha_le hs
              have hcount2 : nonAlphaCount w ≤ nonAlphaCount x1 := by
                apply down_chain_count (fun c pr hmem => (hent c pr hmem).2.2)
                  (x2 :: rest'') x1 w (List.chain'_cons.mp hdownch).2
                rw [← List.getLast?_cons_cons (a := a)] at hp2
                exact hp2
              have hx1fs' : x1 ∈ find_similar_words wl s := by
                rw [← has]
                exact hx1fs
              have hsfs : s ∈ find_similar_words wl x1 :=
                fs_back hx1fs' hswl (Nat.le_trans hcount1 hcount2)
              exact hproc x1 hx1P s hsfs hnone
    · rw [lookupParent_cons, if_pos rfl]
      simp
  · rw [if_neg hnone]
    exact ⟨⟨hent, hproc, huniq⟩, hnone⟩

theorem foldl_preserve_mark {α β : Type} (Inv : β → Prop) (Q : β → α → Prop)
    (f : β → α → β) :
    ∀ (l : List α) (b : β), Inv b →
      (∀ b a, a ∈ l → Inv b → Inv (f b a) ∧ Q (f b a) a) →
      (∀ b a c, c ∈ l → Q b a → Q (f b c) a) →
      Inv (l.foldl f b) ∧ ∀ a ∈ l, Q (l.foldl f b) a := by
  intro l
  induction l with
  | nil =>
    intro b h0 _ _
    exact ⟨h0, fun a ha => absurd ha (List.not_mem_nil a)⟩
  | cons a l' ih =>
    intro b h0 hstep hQmono
    obtain ⟨hInv1, hQ1⟩ := hstep b a (List.mem_cons_self a l') h0
    obtain ⟨hInvF, hQF⟩ := ih (f b a) hInv1
      (fun b' a' ha' h' => hstep b' a' (List.mem_cons_of_mem _ ha') h')
      (fun b' a' c' hc' => hQmono b' a' c' (List.mem_cons_of_mem _ hc'))
    refine ⟨hInvF, ?_⟩
    intro x hx
    rcases List.mem_cons.mp hx with rfl | hx'
    · exact foldl_preserve (fun st => Q st x) f l' (f b x) hQ1
        (fun b' c' hc' hq => hQmono b' x c' (List.mem_cons_of_mem _ hc') hq)
    · exact hQF x hx'

theorem innerInv_processWord {wl P : List Word} {w : Word} (hw : w ∈ wl)
    {g : WordGraph} (hinv : InnerInv wl P w g) :
    InnerInv wl P w (processWord wl g w) ∧
      ∀ s ∈ find_similar_words wl w,
        lookupParent (processWord wl g w).word_parents s ≠ none := by
  unfold processWord
  exact foldl_preserve_mark (InnerInv wl P w)
    (fun g s => lookupParent g.word_parents s ≠ none)
    (fun g s => adoptStep g w s) _ g hinv
    (fun g' s hsmem hg' => innerInv_adoptStep hw hsmem hg')
    (fun g' s s' _ hq => adopt_lookup_mono g' w s' s hq)

theorem walk_empty_singleton {u v : Word} {p : List Word}
    (hp : IsWalkFrom [] u v p) : p = [u] ∧ u = v := by
  obtain ⟨h1, h2, h3⟩ := hp
  cases p with
  | nil => exact Option.noConfusion h1
  | cons a rest =>
    have hau : a = u := by simpa using h1
    cases rest with
    | nil =>
      have hav : a = v := by simpa using h2
      exact ⟨by rw [hau], by rw [← hau, hav]⟩
    | cons b rest' =>
      rcases (List.chain'_cons.mp h3).1 with h | h <;>
        · unfold lookupParent at h
          simp at h

theorem outerInv_processWord {wl : List Word} {w : Word} (hw : w ∈ wl)
    {g : WordGraph} (h : OuterInv wl g) : OuterInv wl (processWord wl g w) := by
  obtain ⟨P, hent, hproc, huniq⟩ := h
  have hinner : InnerInv wl P w g := by
    refine ⟨?_, hproc, huniq⟩
    intro c pr hmem
    obtain ⟨h1, h2, h3⟩ := hent c pr hmem
    exact ⟨List.mem_append_left _ h1, h2, h3⟩
  obtain ⟨⟨hent', hproc', huniq'⟩, hcov⟩ := innerInv_processWord hw hinner
  refine ⟨P ++ [w], hent', ?_, huniq'⟩
  intro u hu x hx
  rcases List.mem_append.mp hu with h | h
  · exact hproc' u h x hx
  · have huw : u = w := by simpa using h
    exact hcov x (by rw [← huw]; exact hx)

theorem buildOrder_subset (wl : List Word) : ∀ w ∈ buildOrder wl, w ∈ wl := by
  intro w hw
  unfold buildOrder at hw
  rw [List.mem_flatMap] at hw
  obtain ⟨n, _, hmem⟩ := hw
  exact List.mem_of_mem_filter hmem

theorem build_OuterInv (wl : List Word) : OuterInv wl (build_word_network wl) := by
  unfold build_word_network
  apply foldl_preserve (OuterInv wl)
  · refine ⟨[], ?_, ?_, ?_⟩
    · intro c pr h
      exact absurd h (List.not_mem_nil _)
    · intro u hu
      exact absurd hu (List.not_mem_nil _)
    · intro u v p q hp hq _ _
      obtain ⟨hpe, _⟩ := walk_empty_singleton hp
      obtain ⟨hqe, _⟩ := walk_empty_singleton hq
      rw [hpe, hqe]
  · intro g w hwmem hg
    exact outerInv_processWord (buildOrder_subset wl w hwmem) hg

/-- The recorded relation of a built graph has unique duplicate-free walks
— the built graph is a forest. -/
theorem build_uniqWalks (wl : List Word) :
    UniqWalks (build_word_network wl).word_parents := by
  obtain ⟨P, _, _, h⟩ := build_OuterInv wl
  exact h

/-- Every recorded parent entry of a built graph joins dictionary words. -/
theorem build_parents_mem_wl (wl : List Word) :
    ∀ c pr : Word, (c, pr) ∈ (build_word_network wl).word_parents →
      c ∈ wl ∧ pr ∈ wl := by
  obtain ⟨P, hent, _, _⟩ := build_OuterInv wl
  intro c pr h
  exact ⟨fs_mem_wl (hent c pr h).2.2, (hent c pr h).2.1⟩

/-! ## Claim C3 -/

/-- Claim C3: for every built WordGraph and all words `u` and `v`, `u` is in
`neighbors(v)` if and only if `v` is in `neighbors(u)`: the relation
answered by `get_neighbors`/`get_connected_words` after build is
symmetric. -/
theorem claim_C3 (word_list : List Word) (u v : Word) :
    u ∈ get_neighbors (build_word_network word_list) v ↔
    v ∈ get_neighbors (build_word_network word_list) u := by
  unfold get_neighbors
  rw [mem_connected_build, mem_connected_build]
  exact or_comm

/-- Claim C1 evaluated at the failing input: `bat` and `rat` are
equal-length dictionary words differing in exactly one character position
(the code's own `estimate_remaining_steps` counts 1), yet after
`build_word_network` neither is a neighbour of the other — the
single-parent construction drops the edge, because both words already have
a parent (`cat`) by the time it could be recorded.  The claimed invariant
"every such pair is an edge" is false of the code. -/
theorem claim_C1_eval :
    ("bat".toList ∈ dictC1 ∧ "rat".toList ∈ dictC1 ∧
     ("bat".toList : Word).length = ("rat".toList : Word).length ∧
     estimate_remaining_steps "bat".toList "rat".toList = 1) ∧
    "bat".toList ∉ get_neighbors (build_word_network dictC1) "rat".toList ∧
    "rat".toList ∉ get_neighbors (build_word_network dictC1) "bat".toList := by
  decide

/-! ## Claim C2 -/

/-- Claim C2: `initialize_game` can never return `True`: the call
`self.word_graph.get_word_count()` raises `AttributeError` (the class
defines `count_words`), the blanket `except` catches it, and `False` is
returned — even for a perfectly readable, non-empty dictionary such as the
one-word file `cat` (second conjunct shows `load_words` does load it). -/
theorem claim_C2 :
    (∀ source : Option (List Word), initialize_game source = false) ∧
    load_words (some ["cat".toList]) = ["cat".toList] := by
  constructor
  · intro source
    rfl
  · decide

/-- Claim C4 evaluated at the failing input: the best path is set and the
current word sits on it strictly before its last entry, yet `get_hint`
raises (`self.search.h_cost` — `SearchAlgorithms` defines no `h_cost`)
instead of returning the next path entry with the g/h/f metrics. -/
theorem claim_C4_eval :
    (stC4.best_path = some ["cat".toList, "cot".toList] ∧
     stC4.current_word = some "cat".toList ∧
     (["cat".toList, "cot".toList] : List Word).indexOf? "cat".toList = some 0 ∧
     0 < (["cat".toList, "cot".toList] : List Word).length - 1) ∧
    exceptIsError (get_hint stC4) = true := by
  decide

/-! ## Claim C8 -/

/-- Claim C8 (amended): during an active game `is_valid_move(word)` is true
iff the word is non-empty, the length of the moves list itself (not the
move count `len(moves) - 1`) is still below the move limit,
`is_word_valid` accepts the lowercased word, and the lowercased word is an
adjacency-neighbour of the current word.  (The original claim's boundary —
move count `len(moves) - 1` below the limit — is off by one; the code
rejects as soon as `len(moves) ≥ move_limit`.) -/
theorem claim_C8_amended (st : GameState) (word c : Word)
    (hc : st.current_word = some c) :
    is_valid_move st word = true ↔
      (word ≠ [] ∧ st.moves.length < st.move_limit ∧
       is_word_valid st (pyLower word) = true ∧
       pyLower word ∈ get_neighbors st.word_graph c) := by
  unfold is_valid_move
  rw [hc]
  by_cases h1 : word = []
  · simp [h1]
  · rw [if_neg h1]
    by_cases h2 : st.move_limit ≤ st.moves.length
    · rw [if_pos h2]
      constructor
      · intro h
        exact absurd h (by simp)
      · intro h
        omega
    · rw [if_neg h2]
      by_cases h3 : ¬ (is_word_valid st (pyLower word) = true)
      · rw [if_pos h3]
        constructor
        · intro h
          exact absurd h (by simp)
        · intro h
          exact absurd h.2.2.1 h3
      · rw [if_neg h3]
        push_neg at h3
        constructor
        · intro h
          exact ⟨h1, by omega, h3, by simpa using h⟩
        · intro h
          simpa using h.2.2.2

theorem claim_C8_amended_witness :
    stC8ok.current_word = some "cat".toList ∧
    (is_valid_move stC8ok "cot".toList = true ↔
      ("cot".toList ≠ ([] : Word) ∧ stC8ok.moves.length < stC8ok.move_limit ∧
       is_word_valid stC8ok (pyLower "cot".toList) = true ∧
       pyLower "cot".toList ∈ get_neighbors stC8ok.word_graph "cat".toList)) :=
  ⟨rfl, claim_C8_amended stC8ok "cot".toList "cat".toList rfl⟩

/-- Claim C8 counterexample: every condition of the claim holds — the word
is valid, the current move count `len(moves) - 1 = 1` is below the move
limit `2`, and the word neighbours the current word — yet `is_valid_move`
returns `False` (the code compares `len(moves)`, not `len(moves) - 1`,
against the limit). -/
theorem claim_C8_counterexample :
    (is_word_valid stC8 "cot".toList = true ∧
     get_current_moves stC8 < (stC8.move_limit : ℤ) ∧
     stC8.current_word = some "cat".toList ∧
     "cot".toList ∈ get_neighbors stC8.word_graph "cat".toList) ∧
    is_valid_move stC8 "cot".toList = false := by
  decide

/-! ## Claim C10 -/

/-- Claim C10: whenever `make_move` returns `False` the session state is
exactly as it was — `current_word`, `moves`, `target_word`, `best_path`,
`score` and every other field (the whole record is unchanged). -/
theorem claim_C10 (st : GameState) (word : Word)
    (h : (make_move st word).2 = false) :
    (make_move st word).1 = st := by
  unfold make_move at h ⊢
  by_cases hv : ¬ (is_valid_move st (pyLower word) = true)
  · rw [if_pos hv]
  · rw [if_neg hv] at h
    exact absurd h (by simp)

theorem claim_C10_witness :
    (make_move stC10 "dog".toList).2 = false ∧
    (make_move stC10 "dog".toList).1 = stC10 :=
  ⟨by decide, claim_C10 stC10 "dog".toList (by decide)⟩

/-- `Rat.floor` is the floor of the `FloorRing ℚ` instance. -/
theorem ratFloor_eq (q : ℚ) : Rat.floor q = ⌊q⌋ := rfl

/-- `calculate_score` unfolded when the best path is a known list. -/
theorem calculate_score_some (st : GameState) (bp : List Word)
    (hbp : st.best_path = some bp) :
    calculate_score st =
      (if bp = [] then 0
       else if (st.moves.length : ℤ) - 1 = 0 then 0
       else pyInt ((pyMin (1000 * ((((bp.length : ℤ) - 1 : ℤ) : ℚ) /
                      (((st.moves.length : ℤ) - 1 : ℤ) : ℚ))) 1000 +
                    (((st.move_limit : ℤ) - ((st.moves.length : ℤ) - 1) : ℤ) : ℚ) * 100) *
                   difficultyMultiplier st.difficulty)) := by
  unfold calculate_score
  rw [hbp]

/-- Claim C9 (amended): with the best path set, `calculate_score` returns 0
when `actualMoves = len(moves) - 1` is 0, and otherwise returns
`(baseScore + moveBonus) × multiplier` truncated toward zero — Python's
`int()`, not `floor` (the two differ exactly on the negative totals that
arise when `actualMoves` exceeds `moveLimit`).  The multipliers are 1, 3/2
and 2 for beginner/advanced/challenge.  The claim's example (optimal 3,
actual 3, limit 10, beginner) evaluates to 1700. -/
theorem claim_C9_amended (st : GameState) (bp : List Word)
    (hbp : st.best_path = some bp) (hne : bp ≠ []) :
    ((st.moves.length : ℤ) - 1 = 0 → calculate_score st = 0) ∧
    ((st.moves.length : ℤ) - 1 ≠ 0 →
      ∀ mult : ℚ,
        (st.difficulty = "beginner" → mult = 1) →
        (st.difficulty = "advanced" → mult = 3 / 2) →
        (st.difficulty = "challenge" → mult = 2) →
        (st.difficulty ≠ "beginner" → st.difficulty ≠ "advanced" →
          st.difficulty ≠ "challenge" → mult = 1) →
        calculate_score st =
          pyInt ((min (1000 * ((((bp.length : ℤ) - 1 : ℤ) : ℚ) /
                    (((st.moves.length : ℤ) - 1 : ℤ) : ℚ))) 1000 +
                  (((st.move_limit : ℤ) - ((st.moves.length : ℤ) - 1) : ℤ) : ℚ) * 100) *
                 mult)) ∧
    calculate_score stC9ok = 1700 := by
  refine ⟨?_, ?_, ?_⟩
  · intro h0
    rw [calculate_score_some st bp hbp, if_neg hne, if_pos h0]
  · intro hne0 mult hb ha hc hother
    rw [calculate_score_some st bp hbp, if_neg hne, if_neg hne0]
    have hm : difficultyMultiplier st.difficulty = mult := by
      unfold difficultyMultiplier
      by_cases d1 : st.difficulty = "beginner"
      · rw [if_pos d1, hb d1]
      · rw [if_neg d1]
        by_cases d2 : st.difficulty = "advanced"
        · rw [if_pos d2, ha d2]
        · rw [if_neg d2]
          by_cases d3 : st.difficulty = "challenge"
          · rw [if_pos d3, hc d3]
          · rw [if_neg d3, hother d1 d2 d3]
    rw [hm, pyMin_eq_min]
  · rw [calculate_score_some stC9ok
      (["aaa".toList, "aab".toList, "abb".toList, "bbb".toList]) rfl,
      if_neg (by decide), if_neg (by decide)]
    have hd : difficultyMultiplier stC9ok.difficulty = 1 := rfl
    rw [hd]
    norm_num [pyMin, pyInt, ratFloor_eq, stC9ok]

theorem claim_C9_amended_witness :
    stC9ok.best_path = some ["aaa".toList, "aab".toList, "abb".toList, "bbb".toList] ∧
    calculate_score stC9ok = 1700 :=
  ⟨rfl, (claim_C9_amended stC9ok _ rfl (by decide)).2.2⟩

/-- Claim C9 counterexample: at optimal 3, actual 14, limit 10, beginner,
the code returns −185 (truncation toward zero) while the claimed
`floor((min(1000·3/14, 1000) + (10 − 14)·100) · 1.0)` is −186. -/
theorem claim_C9_counterexample :
    calculate_score stC9 = -185 ∧
    ⌊(min (1000 * ((3 : ℚ) / 14)) 1000 + ((10 : ℚ) - 14) * 100) * 1⌋ = -186 ∧
    calculate_score stC9 ≠
      ⌊(min (1000 * ((3 : ℚ) / 14)) 1000 + ((10 : ℚ) - 14) * 100) * 1⌋ := by
  have h1 : calculate_score stC9 = -185 := by
    rw [calculate_score_some stC9
        (["aaa".toList, "aab".toList, "abb".toList, "bbb".toList]) rfl,
      if_neg (by decide), if_neg (by decide)]
    have hd : difficultyMultiplier stC9.difficulty = 1 := rfl
    rw [hd]
    have hmoves : (stC9.moves.length : ℤ) = 15 := by decide
    have hlim : (stC9.move_limit : ℤ) = 10 := by decide
    have hlen : (((["aaa".toList, "aab".toList, "abb".toList, "bbb".toList] : List Word)).length : ℤ)
        = 4 := by decide
    rw [hmoves, hlim, hlen]
    have harg : ((pyMin (1000 * ((((4 : ℤ) - 1 : ℤ) : ℚ) / (((15 : ℤ) - 1 : ℤ) : ℚ))) 1000 +
        (((10 : ℤ) - ((15 : ℤ) - 1) : ℤ) : ℚ) * 100) * 1 : ℚ) = -1300 / 7 := by
      rw [pyMin]
      norm_num
    rw [harg]
    rw [pyInt, if_pos (by norm_num)]
    rw [ratFloor_eq]
    have hneg : (-(-1300 / 7) : ℚ) = 1300 / 7 := by norm_num
    rw [hneg]
    rw [show ⌊(1300 / 7 : ℚ)⌋ = 185 from by (rw [Int.floor_eq_iff]; norm_num)]
  have h2 : ⌊(min (1000 * ((3 : ℚ) / 14)) 1000 + ((10 : ℚ) - 14) * 100) * 1⌋ = -186 := by
    have harg : ((min (1000 * ((3 : ℚ) / 14)) 1000 + ((10 : ℚ) - 14) * 100) * 1 : ℚ)
        = -1300 / 7 := by
      rw [min_eq_left (by norm_num)]
      norm_num
    rw [harg]
    rw [Int.floor_eq_iff]
    norm_num
  exact ⟨h1, h2, by rw [h1, h2]; omega⟩

/-! ## The built graph seen by the search algorithms -/

/-- `build_word_network` never touches `word_list`. -/
theorem build_word_list (wl : List Word) :
    (build_word_network wl).word_list = wl := by
  unfold build_word_network
  refine foldl_preserve (fun (g : WordGraph) => g.word_list = wl) _ _ _ rfl ?_
  intro g w _ hg
  unfold processWord
  refine foldl_preserve (fun (g : WordGraph) => g.word_list = wl) _ _ _ hg ?_
  intro g' s _ hg'
  unfold adoptStep
  split_ifs <;> exact hg'

/-- On a built graph, `get_neighbors` answers exactly the edge relation
`EEdge` of the recorded parents. -/
theorem mem_neighbors_build (wl : List Word) (u v : Word) :
    v ∈ get_neighbors (build_word_network wl) u ↔
      EEdge (build_word_network wl).word_parents u v := by
  unfold get_neighbors EEdge
  rw [mem_connected_build]
  exact or_comm

/-- Neighbours of any word in a built graph are dictionary words. -/
theorem neighbors_build_mem_wl {wl : List Word} {u v : Word}
    (h : v ∈ get_neighbors (build_word_network wl) u) : v ∈ wl := by
  rcases (mem_neighbors_build wl u v).mp h with h' | h'
  · exact (build_parents_mem_wl wl u v (lookup_mem h')).2
  · exact (build_parents_mem_wl wl v u (lookup_mem h')).1

/-- A set of vertices closed under the edge relation contains the endpoint
of every walk leaving from inside it. -/
theorem closure_reach {ps : List (Word × Word)} {S : List Word}
    (hcl : ∀ x ∈ S, ∀ y, EEdge ps x y → y ∈ S) :
    ∀ (p : List Word) (x t : Word), x ∈ S → IsWalkFrom ps x t p → t ∈ S := by
  intro p
  induction p with
  | nil =>
    intro x t _ hw
    exact absurd rfl (walk_ne_nil hw)
  | cons a rest ih =>
    intro x t hx hw
    have hax : a = x := by simpa using hw.1
    cases rest with
    | nil =>
      have hat : a = t := by simpa using hw.2.1
      rw [← hat, hax]
      exact hx
    | cons b rest' =>
      have hedge : EEdge ps a b := (List.chain'_cons.mp hw.2.2).1
      have hb : b ∈ S := hcl x hx b (by rw [← hax]; exact hedge)
      refine ih b t hb ⟨rfl, ?_, (List.chain'_cons.mp hw.2.2).2⟩
      rw [← hw.2.1, List.getLast?_cons_cons]

/-- A duplicate-free list inside another list is no longer than it. -/
theorem nodup_subset_length {l L : List Word} (hnd : l.Nodup)
    (hsub : ∀ x ∈ l, x ∈ L) : l.length ≤ L.length := by
  calc l.length = l.toFinset.card := (List.toFinset_card_of_nodup hnd).symm
    _ ≤ L.toFinset.card := Finset.card_le_card
        (fun x hx => List.mem_toFinset.mpr (hsub x (List.mem_toFinset.mp hx)))
    _ ≤ L.length := L.toFinset_card_le

/-! ## `heapq` pop: permutation facts -/

/-- `popMin` fails only on the empty heap. -/
theorem popMin_none {q : List HeapEntry} (h : popMin q = none) : q = [] := by
  cases q with
  | nil => rfl
  | cons e es =>
    exfalso
    unfold popMin at h
    cases hp : popMin es with
    | none =>
      rw [hp] at h
      exact Option.noConfusion h
    | some pr =>
      obtain ⟨m, r⟩ := pr
      rw [hp] at h
      dsimp only at h
      by_cases hlt : heapLt (m.1, m.2.1) (e.1, e.2.1)
      · rw [if_pos hlt] at h
        exact Option.noConfusion h
      · rw [if_neg hlt] at h
        exact Option.noConfusion h

/-- Popping the minimum returns a permutation of the heap. -/
theorem popMin_perm :
    ∀ {q : List HeapEntry} {e : HeapEntry} {rest : List HeapEntry},
      popMin q = some (e, rest) → q.Perm (e :: rest) := by
  intro q
  induction q with
  | nil =>
    intro e rest h
    exact Option.noConfusion h
  | cons a es ih =>
    intro e rest h
    unfold popMin at h
    cases hp : popMin es with
    | none =>
      rw [hp] at h
      dsimp only at h
      have hes : es = [] := popMin_none hp
      simp only [Option.some.injEq, Prod.mk.injEq] at h
      rw [h.1, ← h.2, hes]
    | some pr =>
      obtain ⟨m, r⟩ := pr
      rw [hp] at h
      dsimp only at h
      by_cases hlt : heapLt (m.1, m.2.1) (a.1, a.2.1)
      · rw [if_pos hlt] at h
        simp only [Option.some.injEq, Prod.mk.injEq] at h
        obtain ⟨h1, h2⟩ := h
        rw [← h2, ← h1]
        exact ((ih hp).cons a).trans (List.Perm.swap m a r)
      · rw [if_neg hlt] at h
        simp only [Option.some.injEq, Prod.mk.injEq] at h
        rw [h.1, ← h.2]

/-- One neighbour expansion preserves `ExpandInv` and marks every expanded
neighbour visited. -/
theorem bfs_expand {wl : List Word} {start cw : Word} {cp : List Word}
    {rest : List QueueEntry} {visited : List Word}
    (hwalk : IsWalkFrom (build_word_network wl).word_parents start cw cp)
    (hnd : cp.Nodup) (hmemcp : ∀ x ∈ cp, x ∈ visited)
    (hOKrest : EntriesOK (build_word_network wl).word_parents start visited rest)
    (hvnd : visited.Nodup) (hvsub : ∀ x ∈ visited, x ∈ start :: wl) :
    ExpandInv wl start visited rest
      ((get_neighbors (build_word_network wl) cw).foldl (bfsStep cp)
        (rest, visited)) ∧
    ∀ y ∈ get_neighbors (build_word_network wl) cw,
      y ∈ ((get_neighbors (build_word_network wl) cw).foldl (bfsStep cp)
        (rest, visited)).2 := by
  refine foldl_preserve_mark (ExpandInv wl start visited rest)
    (fun qv y => y ∈ qv.2) (bfsStep cp) _ _
    ⟨hOKrest, hvnd, hvsub, fun x hx => hx, fun x hx => Or.inl hx,
      fun e he => he, rfl⟩ ?_ ?_
  · intro qv y hy hInv
    obtain ⟨hOK, hnd2, hsub2, hmono, hnew, hrest2, harith⟩ := hInv
    unfold bfsStep
    by_cases hyv : y ∈ qv.2
    · rw [if_pos hyv]
      exact ⟨⟨hOK, hnd2, hsub2, hmono, hnew, hrest2, harith⟩, hyv⟩
    · rw [if_neg hyv]
      refine ⟨⟨?_, ?_, ?_, ?_, ?_, ?_, ?_⟩, List.mem_cons_self y qv.2⟩
      · intro e he
        rcases List.mem_append.mp he with he | he
        · obtain ⟨w1, w2, w3⟩ := hOK e he
          exact ⟨w1, w2, fun x hx => List.mem_cons_of_mem _ (w3 x hx)⟩
        · have he' : e = (y, cp ++ [y]) := by simpa using he
          rw [he']
          refine ⟨walk_snoc hwalk ((mem_neighbors_build wl cw y).mp hy), ?_, ?_⟩
          · rw [List.nodup_append]
            refine ⟨hnd, List.nodup_singleton y, ?_⟩
            intro a ha hay
            have hay' : a = y := by simpa using hay
            rw [hay'] at ha
            exact hyv (hmono y (hmemcp y ha))
          · intro x hx
            rcases List.mem_append.mp hx with hx | hx
            · exact List.mem_cons_of_mem _ (hmono x (hmemcp x hx))
            · have hxy : x = y := by simpa using hx
              rw [hxy]
              exact List.mem_cons_self y qv.2
      · exact List.nodup_cons.mpr ⟨hyv, hnd2⟩
      · intro x hx
        rcases List.mem_cons.mp hx with hxy | hx'
        · rw [hxy]
          exact List.mem_cons_of_mem _ (neighbors_build_mem_wl hy)
        · exact hsub2 x hx'
      · intro x hx
        exact List.mem_cons_of_mem _ (hmono x hx)
      · intro x hx
        rcases List.mem_cons.mp hx with hxy | hx'
        · exact Or.inr ⟨(y, cp ++ [y]), List.mem_append_right _ (by simp), hxy.symm⟩
        · rcases hnew x hx' with h | ⟨e, he, he1⟩
          · exact Or.inl h
          · exact Or.inr ⟨e, List.mem_append_left _ he, he1⟩
      · intro e he
        exact List.mem_append_left _ (hrest2 e he)
      · show (qv.1 ++ [(y, cp ++ [y])]).length + visited.length =
          rest.length + (y :: qv.2).length
        rw [List.length_append, List.length_cons]
        simp only [List.length_cons, List.length_nil]
        omega
  · intro qv y c hc hq
    unfold bfsStep
    split_ifs with h
    · exact hq
    · exact List.mem_cons_of_mem _ hq

/-- The queue never outgrows the fuel under `SearchInv`. -/
theorem searchInv_fuel_bound {wl : List Word} {start target : Word}
    {fuel : Nat} {queue : List QueueEntry} {visited : List Word}
    (hinv : SearchInv wl start target fuel queue visited) :
    queue.length ≤ fuel := by
  obtain ⟨_, hvnd, hvsub, _, _, harith⟩ := hinv
  have hlen := nodup_subset_length hvnd hvsub
  simp only [List.length_cons] at hlen
  omega

/-- With an empty queue, `SearchInv` plus reachability of the target from
a visited word is contradictory: the visited set is edge-closed, so it
would contain the target, which the invariant then requires to be
queued. -/
theorem searchInv_empty_queue {wl : List Word} {start target : Word}
    {fuel : Nat} {visited : List Word}
    (hinv : SearchInv wl start target fuel [] visited)
    (hreach : ∃ x ∈ visited,
      Conn (build_word_network wl).word_parents x target) :
    False := by
  obtain ⟨_, _, _, hclosed, hT, _⟩ := hinv
  obtain ⟨x, hx, p, hp⟩ := hreach
  have hcl : ∀ z ∈ visited, ∀ y,
      EEdge (build_word_network wl).word_parents z y → y ∈ visited := by
    intro z hz
    rcases hclosed z hz with ⟨e, he, _⟩ | h
    · exact absurd he (List.not_mem_nil e)
    · exact h
  obtain ⟨e, he, _⟩ := hT (closure_reach hcl p x target hx hp)
  exact absurd he (List.not_mem_nil e)

/-- `SearchInv` only depends on the queue up to permutation. -/
theorem searchInv_perm {wl : List Word} {start target : Word} {fuel : Nat}
    {q q' : List QueueEntry} {visited : List Word}
    (hperm : q.Perm q') (hinv : SearchInv wl start target fuel q visited) :
    SearchInv wl start target fuel q' visited := by
  obtain ⟨hOK, hvnd, hvsub, hclosed, hT, harith⟩ := hinv
  refine ⟨fun e he => hOK e (hperm.mem_iff.mpr he), hvnd, hvsub, ?_, ?_, ?_⟩
  · intro x hx
    rcases hclosed x hx with ⟨e, he, h1⟩ | h
    · exact Or.inl ⟨e, hperm.mem_iff.mp he, h1⟩
    · exact Or.inr h
  · intro htv
    obtain ⟨e, he, h1⟩ := hT htv
    exact ⟨e, hperm.mem_iff.mp he, h1⟩
  · rw [← hperm.length_eq]
    exact harith

/-- The invariant at the initial state of all three searches. -/
theorem searchInv_init (wl : List Word) (s t : Word) :
    SearchInv wl s t (wl.length + 2) [(s, [s])] [s] := by
  refine ⟨?_, List.nodup_singleton s, ?_, ?_, ?_, ?_⟩
  · intro e he
    have he' : e = (s, [s]) := by simpa using he
    rw [he']
    exact ⟨walk_singleton _ s, List.nodup_singleton s, fun x hx => hx⟩
  · intro x hx
    have hxs : x = s := by simpa using hx
    rw [hxs]
    exact List.mem_cons_self s wl
  · intro x hx
    have hxs : x = s := by simpa using hx
    rw [hxs]
    exact Or.inl ⟨(s, [s]), by simp, rfl⟩
  · intro ht
    have hts : t = s := by simpa using ht
    exact ⟨(s, [s]), by simp, hts.symm⟩
  · simp only [List.length_singleton]
    omega

/-- The step equation of `bfsLoop` on a popped entry. -/
theorem bfsLoop_cons (g : WordGraph) (target cw : Word) (cp : List Word)
    (rest : List QueueEntry) (visited : List Word) (fuel : Nat) :
    bfsLoop g target (fuel + 1) ((cw, cp) :: rest) visited =
      if cw = target then some (cp, get_path_stats cp target)
      else
        bfsLoop g target fuel
          ((get_neighbors g cw).foldl (bfsStep cp) (rest, visited)).1
          ((get_neighbors g cw).foldl (bfsStep cp) (rest, visited)).2 := rfl

/-- Soundness and completeness of `bfs`'s loop, simultaneously: under the
invariant, any returned result is a duplicate-free walk from start to
target with its own path stats, and if the target is reachable from a
visited word the loop does return a result. -/
theorem bfsLoop_spec {wl : List Word} (start target : Word) :
    ∀ (fuel : Nat) (queue : List QueueEntry) (visited : List Word),
      SearchInv wl start target fuel queue visited →
      (∀ p stats,
        bfsLoop (build_word_network wl) target fuel queue visited =
          some (p, stats) →
        IsWalkFrom (build_word_network wl).word_parents start target p ∧
          p.Nodup ∧ stats = get_path_stats p target) ∧
      ((∃ x ∈ visited, Conn (build_word_network wl).word_parents x target) →
        (bfsLoop (build_word_network wl) target fuel queue visited).isSome =
          true) := by
  intro fuel
  induction fuel with
  | zero =>
    intro queue visited hinv
    constructor
    · intro p stats h
      exact Option.noConfusion h
    · intro hreach
      exfalso
      have hq : queue = [] :=
        List.length_eq_zero.mp (Nat.le_zero.mp (searchInv_fuel_bound hinv))
      rw [hq] at hinv
      exact searchInv_empty_queue hinv hreach
  | succ fuel ih =>
    intro queue visited hinv
    cases queue with
    | nil =>
      constructor
      · intro p stats h
        exact Option.noConfusion h
      · intro hreach
        exact (searchInv_empty_queue hinv hreach).elim
    | cons e rest =>
      obtain ⟨cw, cp⟩ := e
      obtain ⟨hOK, hvnd, hvsub, hclosed, hT, harith⟩ := hinv
      obtain ⟨hwalk, hnd, hmemcp⟩ := hOK (cw, cp) (List.mem_cons_self _ _)
      have hOKrest : EntriesOK (build_word_network wl).word_parents start
          visited rest := fun e' he' => hOK e' (List.mem_cons_of_mem _ he')
      by_cases hct : cw = target
      · constructor
        · intro p stats h
          rw [bfsLoop_cons, if_pos hct] at h
          have h' : cp = p ∧ get_path_stats cp target = stats := by simpa using h
          rw [← h'.1, ← h'.2]
          refine ⟨?_, hnd, rfl⟩
          rw [← hct]
          exact hwalk
        · intro _
          rw [bfsLoop_cons, if_pos hct]
          rfl
      · have hexp := bfs_expand hwalk hnd hmemcp hOKrest hvnd hvsub
        set st := (get_neighbors (build_word_network wl) cw).foldl (bfsStep cp)
          (rest, visited) with hst
        obtain ⟨⟨hOK', hvnd', hvsub', hmono', hnew', hrest', harith'⟩, hQ⟩ := hexp
        have hclosedcw : ∀ y, EEdge (build_word_network wl).word_parents cw y →
            y ∈ st.2 := fun y hy => hQ y ((mem_neighbors_build wl cw y).mpr hy)
        have hinv' : SearchInv wl start target fuel st.1 st.2 := by
          refine ⟨hOK', hvnd', hvsub', ?_, ?_, ?_⟩
          · intro x hx
            rcases hnew' x hx with hxv | ⟨e', he', he1⟩
            · by_cases hxc : x = cw
              · right
                rw [hxc]
                exact hclosedcw
              · rcases hclosed x hxv with ⟨e', he', he1⟩ | h
                · rcases List.mem_cons.mp he' with he'' | he''
                  · exfalso
                    apply hxc
                    rw [← he1, he'']
                  · exact Or.inl ⟨e', hrest' e' he'', he1⟩
                · right
                  intro y hy
                  exact hmono' y (h y hy)
            · exact Or.inl ⟨e', he', he1⟩
          · intro httgt
            rcases hnew' target httgt with htv | ⟨e', he', he1⟩
            · obtain ⟨e', he', he1⟩ := hT htv
              rcases List.mem_cons.mp he' with he'' | he''
              · exfalso
                apply hct
                rw [← he1, he'']
              · exact ⟨e', hrest' e' he'', he1⟩
            · exact ⟨e', he', he1⟩
          · simp only [List.length_cons] at harith
            omega
        have ihres := ih st.1 st.2 hinv'
        constructor
        · intro p stats h
          rw [bfsLoop_cons, if_neg hct] at h
          exact ihres.1 p stats h
        · intro hreach
          rw [bfsLoop_cons, if_neg hct]
          apply ihres.2
          obtain ⟨x, hx, hconn⟩ := hreach
          exact ⟨x, hmono' x hx, hconn⟩

/-- Soundness of `bfs` on a built graph: a returned path is a
duplicate-free walk from the (unlowered) start to the target, and the
returned stats are the path's stats. -/
theorem bfs_sound {wl : List Word} {s t : Word} {p : List Word}
    {stats : PathStats}
    (h : bfs (build_word_network wl) s t = some (p, stats)) :
    IsWalkFrom (build_word_network wl).word_parents s t p ∧ p.Nodup ∧
      stats = get_path_stats p t := by
  unfold bfs at h
  split_ifs at h with hc
  rw [build_word_list] at h
  exact (bfsLoop_spec s t _ _ _ (searchInv_init wl s t)).1 p stats h

/-- Completeness of `bfs` on a built graph: when both word checks pass and
the endpoints are connected, a result is returned. -/
theorem bfs_complete {wl : List Word} {s t : Word}
    (hs : word_exists (build_word_network wl) s = true)
    (ht : word_exists (build_word_network wl) t = true)
    (hconn : Conn (build_word_network wl).word_parents s t) :
    (bfs (build_word_network wl) s t).isSome = true := by
  unfold bfs
  rw [if_pos ⟨hs, ht⟩, build_word_list]
  exact (bfsLoop_spec s t _ _ _ (searchInv_init wl s t)).2
    ⟨s, List.mem_singleton_self s, hconn⟩

theorem hproj_nil : hproj [] = [] := rfl

theorem hproj_cons (e : HeapEntry) (q : List HeapEntry) :
    hproj (e :: q) = e.2.2 :: hproj q := rfl

theorem hproj_append (q r : List HeapEntry) :
    hproj (q ++ r) = hproj q ++ hproj r := List.map_append _ q r

theorem hproj_length (q : List HeapEntry) : (hproj q).length = q.length :=
  List.length_map q _

theorem heapStep_pos (prio : List Word → Word → ℕ∞) (cp : List Word)
    (q : List HeapEntry) (v : List Word) (c : Nat) (y : Word) (hy : y ∈ v) :
    heapStep prio cp (q, v, c) y = (q, v, c) := by
  simp [heapStep, hy]

theorem heapStep_neg (prio : List Word → Word → ℕ∞) (cp : List Word)
    (q : List HeapEntry) (v : List Word) (c : Nat) (y : Word) (hy : ¬ y ∈ v) :
    heapStep prio cp (q, v, c) y =
      (q ++ [(prio (cp ++ [y]) y, c, y, cp ++ [y])], y :: v, c + 1) := by
  simp [heapStep, hy]

theorem bfsStep_pos (cp : List Word) (q : List QueueEntry) (v : List Word)
    (y : Word) (hy : y ∈ v) : bfsStep cp (q, v) y = (q, v) := by
  simp [bfsStep, hy]

theorem bfsStep_neg (cp : List Word) (q : List QueueEntry) (v : List Word)
    (y : Word) (hy : ¬ y ∈ v) :
    bfsStep cp (q, v) y = (q ++ [(y, cp ++ [y])], y :: v) := by
  simp [bfsStep, hy]

/-- The heap expansion projects onto the queue expansion: same entries
(minus priorities) and the same visited set. -/
theorem heapExpand_proj (prio : List Word → Word → ℕ∞) (cp : List Word) :
    ∀ (neigh : List Word) (rest : List HeapEntry) (visited : List Word)
      (counter : Nat),
      hproj ((neigh.foldl (heapStep prio cp) (rest, visited, counter)).1) =
        (neigh.foldl (bfsStep cp) (hproj rest, visited)).1 ∧
      (neigh.foldl (heapStep prio cp) (rest, visited, counter)).2.1 =
        (neigh.foldl (bfsStep cp) (hproj rest, visited)).2 := by
  intro neigh
  induction neigh with
  | nil =>
    intro rest visited counter
    exact ⟨rfl, rfl⟩
  | cons y ys ih =>
    intro rest visited counter
    simp only [List.foldl_cons]
    by_cases hy : y ∈ visited
    · rw [heapStep_pos prio cp rest visited counter y hy,
        bfsStep_pos cp (hproj rest) visited y hy]
      exact ih rest visited counter
    · rw [heapStep_neg prio cp rest visited counter y hy,
        bfsStep_neg cp (hproj rest) visited y hy]
      have hres := ih (rest ++ [(prio (cp ++ [y]) y, counter, y, cp ++ [y])])
        (y :: visited) (counter + 1)
      have hpr : hproj (rest ++ [(prio (cp ++ [y]) y, counter, y, cp ++ [y])]) =
          hproj rest ++ [(y, cp ++ [y])] := by
        rw [hproj_append]
        rfl
      rw [hpr] at hres
      exact hres

theorem ucsLoop_eq_heapLoop (g : WordGraph) (target : Word) :
    ∀ (fuel : Nat) (queue : List HeapEntry) (visited : List Word)
      (counter : Nat),
      ucsLoop g target fuel queue visited counter =
        heapLoop g target
          (fun new_path _ => ((get_steps_taken new_path : ℕ) : ℕ∞))
          fuel queue visited counter := by
  intro fuel
  induction fuel with
  | zero =>
    intro queue visited counter
    rfl
  | succ fuel ih =>
    intro queue visited counter
    cases hp : popMin queue with
    | none =>
      simp only [ucsLoop, heapLoop, hp]
    | some pr =>
      obtain ⟨e, rest⟩ := pr
      simp only [ucsLoop, heapLoop, hp]
      by_cases hct : e.2.2.1 = target
      · rw [if_pos hct, if_pos hct]
      · rw [if_neg hct, if_neg hct]
        exact ih _ _ _

theorem astarLoop_eq_heapLoop (g : WordGraph) (target : Word) :
    ∀ (fuel : Nat) (queue : List HeapEntry) (visited : List Word)
      (counter : Nat),
      astarLoop g target fuel queue visited counter =
        heapLoop g target
          (fun new_path next_word => calculate_total_cost
            (get_steps_taken new_path)
            (estimate_remaining_steps next_word target))
          fuel queue visited counter := by
  intro fuel
  induction fuel with
  | zero =>
    intro queue visited counter
    rfl
  | succ fuel ih =>
    intro queue visited counter
    cases hp : popMin queue with
    | none =>
      simp only [astarLoop, heapLoop, hp]
    | some pr =>
      obtain ⟨e, rest⟩ := pr
      simp only [astarLoop, heapLoop, hp]
      by_cases hct : e.2.2.1 = target
      · rw [if_pos hct, if_pos hct]
      · rw [if_neg hct, if_neg hct]
        exact ih _ _ _

/-- Soundness and completeness of the common heap loop, for any priority
function: priorities influence only the order of expansion, which the
invariant does not depend on. -/
theorem heapLoop_spec {wl : List Word} (prio : List Word → Word → ℕ∞)
    (start target : Word) :
    ∀ (fuel : Nat) (queue : List HeapEntry) (visited : List Word)
      (counter : Nat),
      SearchInv wl start target fuel (hproj queue) visited →
      (∀ p stats,
        heapLoop (build_word_network wl) target prio fuel queue visited
          counter = some (p, stats) →
        IsWalkFrom (build_word_network wl).word_parents start target p ∧
          p.Nodup ∧ stats = get_path_stats p target) ∧
      ((∃ x ∈ visited, Conn (build_word_network wl).word_parents x target) →
        (heapLoop (build_word_network wl) target prio fuel queue visited
          counter).isSome = true) := by
  intro fuel
  induction fuel with
  | zero =>
    intro queue visited counter hinv
    constructor
    · intro p stats h
      exact Option.noConfusion h
    · intro hreach
      exfalso
      have hq : hproj queue = [] :=
        List.length_eq_zero.mp (Nat.le_zero.mp (searchInv_fuel_bound hinv))
      rw [hq] at hinv
      exact searchInv_empty_queue hinv hreach
  | succ fuel ih =>
    intro queue visited counter hinv
    cases hp : popMin queue with
    | none =>
      have hq : queue = [] := popMin_none hp
      constructor
      · intro p stats h
        rw [hq] at h
        exact Option.noConfusion h
      · intro hreach
        exfalso
        rw [hq, hproj_nil] at hinv
        exact searchInv_empty_queue hinv hreach
    | some pr =>
      obtain ⟨e, rest⟩ := pr
      have hqperm : (hproj queue).Perm (hproj (e :: rest)) :=
        (popMin_perm hp).map _
      have hinv2 := searchInv_perm hqperm hinv
      rw [hproj_cons] at hinv2
      obtain ⟨hOK, hvnd, hvsub, hclosed, hT, harith⟩ := hinv2
      obtain ⟨hwalk, hnd, hmemcp⟩ := hOK e.2.2 (List.mem_cons_self _ _)
      have hOKrest : EntriesOK (build_word_network wl).word_parents start
          visited (hproj rest) :=
        fun e' he' => hOK e' (List.mem_cons_of_mem _ he')
      by_cases hct : e.2.2.1 = target
      · constructor
        · intro p stats h
          simp only [heapLoop, hp] at h
          rw [if_pos hct] at h
          have h' : e.2.2.2 = p ∧ get_path_stats e.2.2.2 target = stats := by
            simpa using h
          rw [← h'.1, ← h'.2]
          refine ⟨?_, hnd, rfl⟩
          rw [← hct]
          exact hwalk
        · intro _
          simp only [heapLoop, hp]
          rw [if_pos hct]
          rfl
      · have hexp := bfs_expand hwalk hnd hmemcp hOKrest hvnd hvsub
        set stH := (get_neighbors (build_word_network wl) e.2.2.1).foldl
          (heapStep prio e.2.2.2) (rest, visited, counter) with hstH
        set stB := (get_neighbors (build_word_network wl) e.2.2.1).foldl
          (bfsStep e.2.2.2) (hproj rest, visited) with hstB
        have hpj := heapExpand_proj prio e.2.2.2
          (get_neighbors (build_word_network wl) e.2.2.1) rest visited counter
        obtain ⟨⟨hOK', hvnd', hvsub', hmono', hnew', hrest', harith'⟩, hQ⟩ := hexp
        have hclosedcw : ∀ y,
            EEdge (build_word_network wl).word_parents e.2.2.1 y →
            y ∈ stB.2 :=
          fun y hy => hQ y ((mem_neighbors_build wl e.2.2.1 y).mpr hy)
        have hinvB : SearchInv wl start target fuel stB.1 stB.2 := by
          refine ⟨hOK', hvnd', hvsub', ?_, ?_, ?_⟩
          · intro x hx
            rcases hnew' x hx with hxv | ⟨e', he', he1⟩
            · by_cases hxc : x = e.2.2.1
              · right
                rw [hxc]
                exact hclosedcw
              · rcases hclosed x hxv with ⟨e', he', he1⟩ | h
                · rcases List.mem_cons.mp he' with he'' | he''
                  · exfalso
                    apply hxc
                    rw [← he1, he'']
                  · exact Or.inl ⟨e', hrest' e' he'', he1⟩
                · right
                  intro y hy
                  exact hmono' y (h y hy)
            · exact Or.inl ⟨e', he', he1⟩
          · intro httgt
            rcases hnew' target httgt with htv | ⟨e', he', he1⟩
            · obtain ⟨e', he', he1⟩ := hT htv
              rcases List.mem_cons.mp he' with he'' | he''
              · exfalso
                apply hct
                rw [← he1, he'']
              · exact ⟨e', hrest' e' he'', he1⟩
            · exact ⟨e', he', he1⟩
          · simp only [List.length_cons] at harith
            omega
        have hinv' : SearchInv wl start target fuel (hproj stH.1) stH.2.1 := by
          rw [hpj.1, hpj.2]
          exact hinvB
        have ihres := ih stH.1 stH.2.1 stH.2.2 hinv'
        constructor
        · intro p stats h
          simp only [heapLoop, hp] at h
          rw [if_neg hct] at h
          exact ihres.1 p stats h
        · intro hreach
          simp only [heapLoop, hp]
          rw [if_neg hct]
          apply ihres.2
          obtain ⟨x, hx, hconn⟩ := hreach
          refine ⟨x, ?_, hconn⟩
          rw [hpj.2]
          exact hmono' x hx

/-- Soundness of `ucs` on a built graph. -/
theorem ucs_sound {wl : List Word} {s t : Word} {p : List Word}
    {stats : PathStats}
    (h : ucs (build_word_network wl) s t = some (p, stats)) :
    IsWalkFrom (build_word_network wl).word_parents s t p ∧ p.Nodup ∧
      stats = get_path_stats p t := by
  unfold ucs at h
  split_ifs at h with hc
  rw [build_word_list, ucsLoop_eq_heapLoop] at h
  exact (heapLoop_spec _ s t _ _ _ _ (searchInv_init wl s t)).1 p stats h

/-- Completeness of `ucs` on a built graph. -/
theorem ucs_complete {wl : List Word} {s t : Word}
    (hs : word_exists (build_word_network wl) s = true)
    (ht : word_exists (build_word_network wl) t = true)
    (hconn : Conn (build_word_network wl).word_parents s t) :
    (ucs (build_word_network wl) s t).isSome = true := by
  unfold ucs
  rw [if_pos ⟨hs, ht⟩, build_word_list, ucsLoop_eq_heapLoop]
  exact (heapLoop_spec _ s t _ _ _ _ (searchInv_init wl s t)).2
    ⟨s, List.mem_singleton_self s, hconn⟩

/-- Soundness of `astar` on a built graph. -/
theorem astar_sound {wl : List Word} {s t : Word} {p : List Word}
    {stats : PathStats}
    (h : astar (build_word_network wl) s t = some (p, stats)) :
    IsWalkFrom (build_word_network wl).word_parents s t p ∧ p.Nodup ∧
      stats = get_path_stats p t := by
  unfold astar at h
  split_ifs at h with hc
  rw [build_word_list, astarLoop_eq_heapLoop] at h
  exact (heapLoop_spec _ s t _ _ _ _ (searchInv_init wl s t)).1 p stats h

/-- Completeness of `astar` on a built graph. -/
theorem astar_complete {wl : List Word} {s t : Word}
    (hs : word_exists (build_word_network wl) s = true)
    (ht : word_exists (build_word_network wl) t = true)
    (hconn : Conn (build_word_network wl).word_parents s t) :
    (astar (build_word_network wl) s t).isSome = true := by
  unfold astar
  rw [if_pos ⟨hs, ht⟩, build_word_list, astarLoop_eq_heapLoop]
  exact (heapLoop_spec _ s t _ _ _ _ (searchInv_init wl s t)).2
    ⟨s, List.mem_singleton_self s, hconn⟩

/-- On a built graph the three searches agree: the recorded relation is a
forest, so the duplicate-free walk between two endpoints is unique, and
soundness plus completeness pin every result down to it. -/
theorem bfs_eq_astar (wl : List Word) (s t : Word) :
    bfs (build_word_network wl) s t = astar (build_word_network wl) s t := by
  by_cases hc : word_exists (build_word_network wl) s = true ∧
      word_exists (build_word_network wl) t = true
  · cases ha : astar (build_word_network wl) s t with
    | none =>
      cases hb : bfs (build_word_network wl) s t with
      | none =>
        rfl
      | some v =>
        obtain ⟨p, stats⟩ := v
        obtain ⟨hwalk, _, _⟩ := bfs_sound hb
        have hsome := astar_complete hc.1 hc.2 ⟨p, hwalk⟩
        rw [ha] at hsome
        exact absurd hsome (by simp)
    | some v =>
      obtain ⟨p, stats⟩ := v
      obtain ⟨hwalkA, hndA, hstA⟩ := astar_sound ha
      have hsome := bfs_complete hc.1 hc.2 ⟨p, hwalkA⟩
      cases hb : bfs (build_word_network wl) s t with
      | none =>
        rw [hb] at hsome
        exact absurd hsome (by simp)
      | some w =>
        obtain ⟨q, sq⟩ := w
        obtain ⟨hwalkB, hndB, hstB⟩ := bfs_sound hb
        have hpq : q = p := build_uniqWalks wl s t q p hwalkB hwalkA hndB hndA
        rw [hstA, hstB, hpq]
  · unfold bfs astar
    rw [if_neg hc, if_neg hc]

/-- `ucs` agrees with `astar` on a built graph, for the same reason. -/
theorem ucs_eq_astar (wl : List Word) (s t : Word) :
    ucs (build_word_network wl) s t = astar (build_word_network wl) s t := by
  by_cases hc : word_exists (build_word_network wl) s = true ∧
      word_exists (build_word_network wl) t = true
  · cases ha : astar (build_word_network wl) s t with
    | none =>
      cases hb : ucs (build_word_network wl) s t with
      | none =>
        rfl
      | some v =>
        obtain ⟨p, stats⟩ := v
        obtain ⟨hwalk, _, _⟩ := ucs_sound hb
        have hsome := astar_complete hc.1 hc.2 ⟨p, hwalk⟩
        rw [ha] at hsome
        exact absurd hsome (by simp)
    | some v =>
      obtain ⟨p, stats⟩ := v
      obtain ⟨hwalkA, hndA, hstA⟩ := astar_sound ha
      have hsome := ucs_complete hc.1 hc.2 ⟨p, hwalkA⟩
      cases hb : ucs (build_word_network wl) s t with
      | none =>
        rw [hb] at hsome
        exact absurd hsome (by simp)
      | some w =>
        obtain ⟨q, sq⟩ := w
        obtain ⟨hwalkB, hndB, hstB⟩ := ucs_sound hb
        have hpq : q = p := build_uniqWalks wl s t q p hwalkB hwalkA hndB hndA
        rw [hstA, hstB, hpq]
  · unfold ucs astar
    rw [if_neg hc, if_neg hc]

/-! ## Lowercasing is idempotent -/

/-- `Char.toLower` is idempotent: lowering an A–Z character lands in a–z,
which the uppercase test then rejects; any other character is returned
unchanged. -/
theorem toLower_idem (c : Char) : c.toLower.toLower = c.toLower := by
  by_cases h : 65 ≤ c.toNat ∧ c.toNat ≤ 90
  · have h1 : c.toLower = Char.ofNat (c.toNat + 32) := by
      show (if c.toNat ≥ 65 ∧ c.toNat ≤ 90 then Char.ofNat (c.toNat + 32)
        else c) = _
      exact if_pos h
    rw [h1]
    obtain ⟨h2, h3⟩ := h
    revert h2 h3
    generalize c.toNat = m
    intro h2 h3
    interval_cases m <;> decide
  · have h1 : c.toLower = c := by
      show (if c.toNat ≥ 65 ∧ c.toNat ≤ 90 then Char.ofNat (c.toNat + 32)
        else c) = c
      exact if_neg h
    rw [h1, h1]

/-- `str.lower()` is idempotent. -/
theorem pyLower_idem (w : Word) : pyLower (pyLower w) = pyLower w := by
  induction w with
  | nil => rfl
  | cons c cs ih =>
    show Char.toLower (Char.toLower c) :: pyLower (pyLower cs) =
      Char.toLower c :: pyLower cs
    rw [toLower_idem, ih]

/-- `word_exists` ignores an outer lowering of its argument. -/
theorem word_exists_pyLower (g : WordGraph) (x : Word) :
    word_exists g (pyLower x) = word_exists g x := by
  unfold word_exists is_valid_word
  rw [pyLower_idem]

/-! ## Claim C5 -/

/-- Claim C5: for every built WordGraph and every pair of words `start` and
`target`, the path returned by `astar(start, target)` is never longer in
edge count (the code's own `g`-cost, `len(path) - 1`) than the path
returned by `bfs(start, target)` for the same pair.  On a built graph the
two searches in fact return identical results. -/
theorem claim_C5 (wl : List Word) (s t : Word) (p q : List Word)
    (sp sq : PathStats)
    (ha : astar (build_word_network wl) s t = some (p, sp))
    (hb : bfs (build_word_network wl) s t = some (q, sq)) :
    get_steps_taken p ≤ get_steps_taken q := by
  rw [bfs_eq_astar, ha] at hb
  have h' : p = q ∧ sp = sq := by simpa using hb
  rw [h'.1]

theorem claim_C5_witness :
    astar (build_word_network dictC5) "cat".toList "cot".toList =
      some (["cat".toList, "cot".toList],
        { g_cost := 1, h_cost := 0, f_cost := 1, path_length := 2 }) ∧
    bfs (build_word_network dictC5) "cat".toList "cot".toList =
      some (["cat".toList, "cot".toList],
        { g_cost := 1, h_cost := 0, f_cost := 1, path_length := 2 }) ∧
    get_steps_taken ["cat".toList, "cot".toList] ≤
      get_steps_taken ["cat".toList, "cot".toList] :=
  ⟨by decide, by decide,
    claim_C5 dictC5 "cat".toList "cot".toList
      ["cat".toList, "cot".toList] ["cat".toList, "cot".toList]
      { g_cost := 1, h_cost := 0, f_cost := 1, path_length := 2 }
      { g_cost := 1, h_cost := 0, f_cost := 1, path_length := 2 }
      (by decide) (by decide)⟩

/-! ## Claim C7 -/

/-- Claim C7: for every pair of dictionary words `u` and `v` (in a
lowercase dictionary, as `load_words` produces) that are connected in the
built WordGraph, `bfs(u, v)` returns a path whose edge count is minimal
among all paths from `u` to `v` in that graph. -/
theorem claim_C7 (wl : List Word) (u v : Word)
    (hlow : ∀ w ∈ wl, pyLower w = w) (hu : u ∈ wl) (hv : v ∈ wl)
    (hconn : Conn (build_word_network wl).word_parents u v) :
    ∃ p stats, bfs (build_word_network wl) u v = some (p, stats) ∧
      IsWalkFrom (build_word_network wl).word_parents u v p ∧
      ∀ q, IsWalkFrom (build_word_network wl).word_parents u v q →
        get_steps_taken p ≤ get_steps_taken q := by
  have hs : word_exists (build_word_network wl) u = true := by
    unfold word_exists is_valid_word
    rw [build_word_list, hlow u hu]
    exact decide_eq_true hu
  have ht : word_exists (build_word_network wl) v = true := by
    unfold word_exists is_valid_word
    rw [build_word_list, hlow v hv]
    exact decide_eq_true hv
  have hsome := bfs_complete hs ht hconn
  cases hb : bfs (build_word_network wl) u v with
  | none =>
    rw [hb] at hsome
    exact absurd hsome (by simp)
  | some val =>
    obtain ⟨p, stats⟩ := val
    obtain ⟨hwalk, hnd, _⟩ := bfs_sound hb
    refine ⟨p, stats, rfl, hwalk, ?_⟩
    intro q hq
    obtain ⟨q', hq', hnd', hlen', _⟩ := walk_shorten q.length q u v le_rfl hq
    have hpq : p = q' := build_uniqWalks wl u v p q' hwalk hq' hnd hnd'
    unfold get_steps_taken
    have hle : p.length ≤ q.length := by
      rw [hpq]
      exact hlen'
    omega

theorem claim_C7_witness :
    ∃ p stats, bfs (build_word_network dictC7) "dog".toList "dot".toList =
        some (p, stats) ∧
      IsWalkFrom (build_word_network dictC7).word_parents "dog".toList
        "dot".toList p ∧
      ∀ q, IsWalkFrom (build_word_network dictC7).word_parents "dog".toList
          "dot".toList q →
        get_steps_taken p ≤ get_steps_taken q :=
  claim_C7 dictC7 "dog".toList "dot".toList (by decide) (by decide)
    (by decide)
    ⟨["dog".toList, "dot".toList],
      ⟨rfl, rfl, List.chain'_pair.mpr (by decide)⟩⟩

/-! ## Claim C6 -/

/-- A word accepted by `is_word_valid` passes the graph's `word_exists`
check (on the relowered word). -/
theorem is_word_valid_word_exists {st : GameState} {w : Word}
    (h : is_word_valid st w = true) :
    word_exists st.word_graph (pyLower w) = true := by
  unfold is_word_valid at h
  dsimp only at h
  split_ifs at h with h1 h2 h3 h4 h5
  exact h2

/-- Claim C6: for all words `start` and `target`, `start_new_game(start,
target)` returns True iff both lowercased words pass `is_word_valid` and a
path exists between them in the (built) graph; on success it sets the moves
list to `[start]`, the target word to `target`, the current word to
`start` (all lowercased), the score to 0, and the best path to the path
computed by the currently selected algorithm (the code probes with
`astar`, which on a built graph returns exactly what the selected
algorithm would). -/
theorem claim_C6 (st : GameState) (wl : List Word) (s t : Word)
    (hbuilt : st.word_graph = build_word_network wl) :
    ((start_new_game st s t).2 = true ↔
      (is_word_valid st (pyLower s) = true ∧
       is_word_valid st (pyLower t) = true ∧
       Conn (build_word_network wl).word_parents (pyLower s) (pyLower t))) ∧
    ((start_new_game st s t).2 = true →
      (start_new_game st s t).1.moves = [pyLower s] ∧
      (start_new_game st s t).1.target_word = some (pyLower t) ∧
      (start_new_game st s t).1.current_word = some (pyLower s) ∧
      (start_new_game st s t).1.score = 0 ∧
      (start_new_game st s t).1.best_path =
        (selectedSearch st.selected_algorithm st.word_graph (pyLower s)
          (pyLower t)).map Prod.fst) := by
  by_cases hval : is_word_valid st (pyLower s) = true ∧
      is_word_valid st (pyLower t) = true
  · obtain ⟨hvs, hvt⟩ := hval
    have hws := is_word_valid_word_exists hvs
    have hwt := is_word_valid_word_exists hvt
    rw [word_exists_pyLower] at hws hwt
    rw [hbuilt] at hws hwt
    cases ha : astar (build_word_network wl) (pyLower s) (pyLower t) with
    | none =>
      have hnconn : ¬ Conn (build_word_network wl).word_parents (pyLower s)
          (pyLower t) := by
        intro hconn
        have hsome := astar_complete hws hwt hconn
        rw [ha] at hsome
        simp at hsome
      have hres : start_new_game st s t = (st, false) := by
        unfold start_new_game
        rw [if_neg (not_not_intro ⟨hvs, hvt⟩), hbuilt, ha]
      rw [hres]
      refine ⟨⟨fun hfalse => absurd hfalse (by simp), ?_⟩,
        fun hfalse => absurd hfalse (by simp)⟩
      intro hrhs
      exact absurd hrhs.2.2 hnconn
    | some val =>
      obtain ⟨path, pstats⟩ := val
      obtain ⟨hwalk, hnd, hst⟩ := astar_sound ha
      have hpne : path ≠ [] := walk_ne_nil hwalk
      have hres : start_new_game st s t =
          ({ st with current_word := some (pyLower s),
                     target_word := some (pyLower t),
                     moves := [pyLower s],
                     best_path := some path,
                     score := 0,
                     algorithm_stats := [] }, true) := by
        unfold start_new_game
        rw [if_neg (not_not_intro ⟨hvs, hvt⟩), hbuilt, ha]
        dsimp only
        rw [if_neg hpne]
      rw [hres]
      refine ⟨⟨fun _ => ⟨hvs, hvt, ⟨path, hwalk⟩⟩, fun _ => rfl⟩, ?_⟩
      intro _
      refine ⟨rfl, rfl, rfl, rfl, ?_⟩
      rw [hbuilt]
      unfold selectedSearch
      split_ifs with hb hu
      · rw [bfs_eq_astar, ha]
        rfl
      · rw [ucs_eq_astar, ha]
        rfl
      · rw [ha]
        rfl
  · have hres : start_new_game st s t = (st, false) := by
      unfold start_new_game
      rw [if_pos hval]
    rw [hres]
    refine ⟨⟨fun hfalse => absurd hfalse (by simp), ?_⟩,
      fun hfalse => absurd hfalse (by simp)⟩
    intro hrhs
    exact absurd ⟨hrhs.1, hrhs.2.1⟩ hval

theorem claim_C6_witness :
    ((start_new_game stC6 "cat".toList "cot".toList).2 = true ↔
      (is_word_valid stC6 (pyLower "cat".toList) = true ∧
       is_word_valid stC6 (pyLower "cot".toList) = true ∧
       Conn (build_word_network dictC6).word_parents (pyLower "cat".toList)
         (pyLower "cot".toList))) ∧
    ((start_new_game stC6 "cat".toList "cot".toList).2 = true →
      (start_new_game stC6 "cat".toList "cot".toList).1.moves =
        [pyLower "cat".toList] ∧
      (start_new_game stC6 "cat".toList "cot".toList).1.target_word =
        some (pyLower "cot".toList) ∧
      (start_new_game stC6 "cat".toList "cot".toList).1.current_word =
        some (pyLower "cat".toList) ∧
      (start_new_game stC6 "cat".toList "cot".toList).1.score = 0 ∧
      (start_new_game stC6 "cat".toList "cot".toList).1.best_path =
        (selectedSearch stC6.selected_algorithm stC6.word_graph
          (pyLower "cat".toList) (pyLower "cot".toList)).map Prod.fst) :=
  claim_C6 stC6 dictC6 "cat".toList "cot".toList rfl

end WordLadder
